import Mathlib

/-!
Shallow embedding of `pkg/api/federation.go` (the `fetch` operation of the
federation server) and proofs about it.

Modelling conventions:
* machine integers (`int64` timestamps, `int32` status/interval fields) are
  modelled as `Int`; key bytes as `List Nat`;
* Go strings are Lean `String`s; `strings.ToUpper` is modelled per character,
  `sort.Strings` as an insertion sort by code-point order (Go sorts strings
  byte-lexicographically, which agrees with code-point order on UTF-8);
* the gRPC context is modelled as a schedule saying from which loop iteration
  on the `ctx.Done()` channel is ready, together with the value of `ctx.Err()`;
* the storage iterator (an external collaborator) is modelled as the script of
  results its successive `Next` calls produce, plus a function giving the
  result of `Cursor()` after a given number of `Next` calls;
* the two Go maps `ctrMap`/`ctiMap` hold pointers into the response being
  assembled; they are modelled as association lists from the same string keys
  to positions (indices) in the response.
-/

/-! ## Character/string ordering and case folding (Go `sort.Strings`, `strings.ToUpper`) -/

/-- Byte/code-point comparison of characters, as Go compares string bytes. -/
def charLt (a b : Char) : Bool := decide (a.toNat < b.toNat)

/-- Lexicographic comparison of character lists (Go string `<`). -/
def charListLt : List Char → List Char → Bool
  | _, [] => false
  | [], _ :: _ => true
  | a :: as, b :: bs =>
    if charLt a b then true
    else if charLt b a then false
    else charListLt as bs

/-- Go string `<` (byte-lexicographic). -/
def strLt (a b : String) : Bool := charListLt a.data b.data

/-- Go string `<=`. -/
def strLe (a b : String) : Bool := !(strLt b a)

/-- Insert into a sorted list of strings. -/
def insertSorted (s : String) : List String → List String
  | [] => [s]
  | t :: ts => if strLe s t then s :: t :: ts else t :: insertSorted s ts

/-- `sort.Strings`: ascending sort. Any correct sort of strings produces the
same list, so insertion sort is extensionally the Go sort. -/
def sortStrings : List String → List String
  | [] => []
  | s :: ss => insertSorted s (sortStrings ss)

/-- `strings.ToUpper` restricted to the ASCII range (region codes). -/
def upperStr (s : String) : String := String.mk (s.data.map Char.toUpper)

/-! ## Wire messages (`pkg/pb`) and storage records (`pkg/model`, `pkg/database`) -/

/-- `pb.FederationFetchRequest`. -/
structure FederationFetchRequest where
  RegionIdentifiers : List String
  ExcludeRegionIdentifiers : List String
  LastFetchResponseKeyTimestamp : Int
  NextFetchToken : String
deriving DecidableEq

/-- `database.FetchInfectionsCriteria`. Timestamps are epoch seconds
(`time.Unix(x, 0)` carries exactly the integer `x`). -/
structure FetchInfectionsCriteria where
  IncludeRegions : List String
  SinceTimestamp : Int
  UntilTimestamp : Int
  LastCursor : String
  OnlyLocalProvenance : Bool
deriving DecidableEq

/-- `model.Infection`: the storage record consumed by the loop.
`CreatedAt` is its creation time in epoch seconds (`inf.CreatedAt.Unix()`). -/
structure Infection where
  K : String
  DiagnosisKey : List Nat
  Regions : List String
  LocalProvenance : Bool
  DiagnosisStatus : Int
  VerificationAuthorityName : String
  IntervalNumber : Int
  IntervalCount : Int
  CreatedAt : Int
deriving DecidableEq

/-- `pb.DiagnosisKey`. -/
structure DiagnosisKeyMsg where
  DiagnosisKey : List Nat
  IntervalNumber : Int
  IntervalCount : Int
deriving DecidableEq

/-- `pb.ContactTracingInfo`. -/
structure ContactTracingInfo where
  DiagnosisStatus : Int
  VerificationAuthorityName : String
  DiagnosisKeys : List DiagnosisKeyMsg
deriving DecidableEq

/-- `pb.ContactTracingResponse`. -/
structure ContactTracingResponse where
  RegionIdentifiers : List String
  ContactTracingInfo : List ContactTracingInfo
deriving DecidableEq

/-- `pb.FederationFetchResponse`. -/
structure FederationFetchResponse where
  Response : List ContactTracingResponse
  FetchResponseKeyTimestamp : Int
  PartialResponse : Bool
  NextFetchToken : String
deriving DecidableEq

/-! ## External collaborators: context and iterator -/

/-- Value of `ctx.Err()` once the context is done: `context.DeadlineExceeded`,
`context.Canceled`, or any other (unexpected) error. -/
inductive CtxErr where
  | deadlineExceeded
  | canceled
  | other
deriving DecidableEq

/-- The caller's cancellation/deadline signal: `doneAfter = some k` means the
`ctx.Done()` channel is ready at every loop iteration `≥ k` (iterations are
counted from 0); `none` means it never becomes ready. -/
structure Ctx where
  doneAfter : Option Nat
  reason : CtxErr

/-- Whether the non-blocking `select` on `ctx.Done()` fires at iteration `i`. -/
def ctxIsDone (c : Ctx) (i : Nat) : Bool :=
  match c.doneAfter with
  | none => false
  | some k => decide (k ≤ i)

/-- Result of one `it.Next()` call: an error, exhaustion (`done = true`), or a
record (possibly `nil`). -/
inductive NextRes where
  | nerr
  | ndone
  | nrec (inf : Option Infection)

/-- Is this `Next` result a record (possibly `nil`)? -/
def NextRes.isRec : NextRes → Bool
  | NextRes.nrec _ => true
  | _ => false

/-- `database.InfectionIterator`: the script of its successive `Next` results,
and the result of `Cursor()` after `n` `Next` calls (`none` = cursor error). -/
structure InfectionIterator where
  nexts : List NextRes
  cursorAt : Nat → Option String

/-- Outcome of the whole call: a response with `err = nil`, a `nil` response
with a non-nil error, or (model artifact only) an iterator script too short to
decide the call. -/
inductive FetchResult where
  | ok (resp : FederationFetchResponse)
  | fail
  | hang
deriving DecidableEq

/-! ## The filter pipeline (federation.go lines 134-188) -/

/-- The per-record filter pipeline, in source order:
empty diagnosis key, empty region list, non-local provenance, unrecognized
diagnosis status, all regions excluded, and (when the inclusion set is
non-empty) no region included, each cause the record to be skipped.
`statusOk` stands for membership in `pb.DiagnosisStatus_name` (the table lives
in the generated `pkg/pb` package and is an arbitrary fixed predicate here);
`inc`/`exc` are the (uppercased) request region lists. -/
def eligible (statusOk : Int → Bool) (inc exc : List String) (inf : Infection) : Bool :=
  !inf.DiagnosisKey.isEmpty &&
  !inf.Regions.isEmpty &&
  inf.LocalProvenance &&
  statusOk inf.DiagnosisStatus &&
  inf.Regions.any (fun r => !exc.contains r) &&
  (inc.isEmpty || inf.Regions.any (fun r => inc.contains r))

/-! ## Aggregation (federation.go lines 190-220) -/

/-- Association-list lookup, modelling a Go map read (keys are kept unique). -/
def alookup {β : Type} (k : String) : List (String × β) → Option β
  | [] => none
  | p :: rest => if p.1 = k then some p.2 else alookup k rest

/-- Replace the element at index `i` (out-of-range is the identity); models an
in-place update through a pointer into the response. -/
def modifyIdx {α : Type} : List α → Nat → (α → α) → List α
  | [], _, _ => []
  | a :: as, 0, f => f a :: as
  | a :: as, n + 1, f => a :: modifyIdx as n f

/-- Total list indexing returning an `Option`. -/
def nth {α : Type} : List α → Nat → Option α
  | [], _ => none
  | a :: _, 0 => some a
  | _ :: as, n + 1 => nth as n

/-- The canonical region-set key of a response entry: its (already sorted)
region list joined with `"::"`. -/
def entryKey (e : ContactTracingResponse) : String :=
  String.intercalate "::" e.RegionIdentifiers

/-- `ctrKey` for a record: regions sorted ascending, joined with `"::"`. -/
def regionKey (regions : List String) : String :=
  String.intercalate "::" (sortStrings regions)

/-- `ctrKey := strings.Join(sort.Strings(inf.Regions), "::")`. -/
def ctrKeyOf (inf : Infection) : String := regionKey inf.Regions

/-- `ctiKey := fmt.Sprintf("%s::%d::%s", ctrKey, status, authority)` (the `%d`
verb prints the numeric enum value). -/
def ctiKeyOf (inf : Infection) : String :=
  ctrKeyOf inf ++ "::" ++ toString inf.DiagnosisStatus ++ "::" ++ inf.VerificationAuthorityName

/-- The `ctiKey` a `ContactTracingInfo` sitting under region key `rk` answers to. -/
def posKey (rk : String) (c : ContactTracingInfo) : String :=
  rk ++ "::" ++ toString c.DiagnosisStatus ++ "::" ++ c.VerificationAuthorityName

/-- The `pb.DiagnosisKey` built verbatim from a record (lines 211-215). -/
def mkKey (inf : Infection) : DiagnosisKeyMsg :=
  { DiagnosisKey := inf.DiagnosisKey
    IntervalNumber := inf.IntervalNumber
    IntervalCount := inf.IntervalCount }

/-- The loop's aggregation state: the response list under construction, the two
map indices (`ctrMap`: ctrKey to entry index; `ctiMap`: ctiKey to (entry index,
info index)), and the running `FetchResponseKeyTimestamp`. -/
structure AggState where
  Response : List ContactTracingResponse
  ctrMap : List (String × Nat)
  ctiMap : List (String × (Nat × Nat))
  ts : Int

/-- State before the loop (lines 94-96). -/
def initState : AggState := { Response := [], ctrMap := [], ctiMap := [], ts := 0 }

/-- Lines 190-198: find or create the `ContactTracingResponse` for the record's
ctrKey; creation appends it (with the sorted region list and no infos yet) and
registers it in `ctrMap`. Returns the updated state and the entry's index. -/
def findOrAddCtr (st : AggState) (inf : Infection) : AggState × Nat :=
  match alookup (ctrKeyOf inf) st.ctrMap with
  | some i => (st, i)
  | none =>
      ({ st with
          Response := st.Response ++
            [{ RegionIdentifiers := sortStrings inf.Regions, ContactTracingInfo := [] }]
          ctrMap := st.ctrMap ++ [(ctrKeyOf inf, st.Response.length)] },
       st.Response.length)

/-- `cti.DiagnosisKeys = append(cti.DiagnosisKeys, dk)`. -/
def withKey (dk : DiagnosisKeyMsg) (cti : ContactTracingInfo) : ContactTracingInfo :=
  { cti with DiagnosisKeys := cti.DiagnosisKeys ++ [dk] }

/-- Apply `withKey` to the `j`-th info of an entry. -/
def withInfoKey (j : Nat) (dk : DiagnosisKeyMsg) (ctr : ContactTracingResponse) :
    ContactTracingResponse :=
  { ctr with ContactTracingInfo := modifyIdx ctr.ContactTracingInfo j (withKey dk) }

/-- `ctr.ContactTracingInfo = append(ctr.ContactTracingInfo, cti)`. -/
def withNewCti (cti : ContactTracingInfo) (ctr : ContactTracingResponse) :
    ContactTracingResponse :=
  { ctr with ContactTracingInfo := ctr.ContactTracingInfo ++ [cti] }

/-- Append one `DiagnosisKey` to the info at position `(i, j)` (the Go code
mutates `cti.DiagnosisKeys` through the pointer stored in `ctiMap`). -/
def addKeyAt (l : List ContactTracingResponse) (i j : Nat) (dk : DiagnosisKeyMsg) :
    List ContactTracingResponse :=
  modifyIdx l i (withInfoKey j dk)

/-- Append a new `ContactTracingInfo` under entry `i`. -/
def addCtiAt (l : List ContactTracingResponse) (i : Nat) (cti : ContactTracingInfo) :
    List ContactTracingResponse :=
  modifyIdx l i (withNewCti cti)

/-- Number of infos under entry `i`. -/
def ctiLenAt (l : List ContactTracingResponse) (i : Nat) : Nat :=
  match nth l i with
  | some e => e.ContactTracingInfo.length
  | none => 0

/-- Lines 217-220: raise the high-watermark when the record's creation time
strictly exceeds it. -/
def bumpTs (ts c : Int) : Int := if c > ts then c else ts

/-- Lines 190-220: one eligible record folded into the aggregation state.
The Go code first finds/creates the `ContactTracingResponse`, then looks up
`ctiMap` (a single map shared by all entries); if the ctiKey is found the key
is appended to that info wherever it lives, otherwise a fresh info (holding
just this key once lines 211-215 ran) is appended under the record's entry. -/
def aggStep (st : AggState) (inf : Infection) : AggState :=
  let p := findOrAddCtr st inf
  match alookup (ctiKeyOf inf) p.1.ctiMap with
  | some ij =>
      { p.1 with
          Response := addKeyAt p.1.Response ij.1 ij.2 (mkKey inf)
          ts := bumpTs p.1.ts inf.CreatedAt }
  | none =>
      { p.1 with
          Response := addCtiAt p.1.Response p.2
            { DiagnosisStatus := inf.DiagnosisStatus
              VerificationAuthorityName := inf.VerificationAuthorityName
              DiagnosisKeys := [mkKey inf] }
          ctiMap := p.1.ctiMap ++ [(ctiKeyOf inf, (p.2, ctiLenAt p.1.Response p.2))]
          ts := bumpTs p.1.ts inf.CreatedAt }

/-! ## The loop (federation.go lines 98-221) -/

/-- The effect of one consumed `Next` result on the aggregation state: a nil
record or a filtered-out record is a no-op, an eligible record is aggregated. -/
def stepNext (statusOk : Int → Bool) (inc exc : List String) (st : AggState) (r : NextRes) :
    AggState :=
  match r with
  | NextRes.nrec (some inf) => if eligible statusOk inc exc inf then aggStep st inf else st
  | _ => st

/-- Aggregation state after consuming a prefix of the iterator script. -/
def runPre (statusOk : Int → Bool) (inc exc : List String) (st : AggState)
    (l : List NextRes) : AggState :=
  l.foldl (stepNext statusOk inc exc) st

/-- The records of a script prefix that survive the filter pipeline. -/
def recsOf (statusOk : Int → Bool) (inc exc : List String) : List NextRes → List Infection
  | [] => []
  | NextRes.nrec (some inf) :: rest =>
      if eligible statusOk inc exc inf then inf :: recsOf statusOk inc exc rest
      else recsOf statusOk inc exc rest
  | _ :: rest => recsOf statusOk inc exc rest

/-- The response assembled at an exit point of the loop. -/
def mkResp (st : AggState) (isPart : Bool) (token : String) : FederationFetchResponse :=
  { Response := st.Response
    FetchResponseKeyTimestamp := st.ts
    PartialResponse := isPart
    NextFetchToken := token }

/-- Lines 101-116: the body of the `select` once `ctx.Done()` fired: an
unexpected `ctx.Err()` aborts; otherwise the iterator's cursor is requested
(failure aborts) and a partial response carrying it is returned. `n` is the
number of `Next` calls made so far. -/
def ctxExit (ctx : Ctx) (cursorAt : Nat → Option String) (n : Nat) (st : AggState) :
    FetchResult :=
  if ctx.reason = CtxErr.other then FetchResult.fail
  else
    match cursorAt n with
    | none => FetchResult.fail
    | some cursor => FetchResult.ok (mkResp st true cursor)

/-- The `for !response.PartialResponse` loop. `i` counts loop iterations (for
the context schedule), `n` counts `Next` calls made so far (for `Cursor`).
Each iteration first polls `ctx.Done()` (the `ctxExit` branch). Otherwise
`Next` is pulled: errors abort, exhaustion returns the completed response, and
a record (nil skipped, then the filter pipeline and the aggregator) is the
`stepNext` state transition. -/
def fetchLoop (ctx : Ctx) (cursorAt : Nat → Option String) (statusOk : Int → Bool)
    (inc exc : List String) : List NextRes → Nat → Nat → AggState → FetchResult
  | [], i, n, st =>
      if ctxIsDone ctx i then ctxExit ctx cursorAt n st else FetchResult.hang
  | NextRes.nerr :: _, i, n, st =>
      if ctxIsDone ctx i then ctxExit ctx cursorAt n st else FetchResult.fail
  | NextRes.ndone :: _, i, n, st =>
      if ctxIsDone ctx i then ctxExit ctx cursorAt n st
      else FetchResult.ok (mkResp st false "")
  | NextRes.nrec o :: rest, i, n, st =>
      if ctxIsDone ctx i then ctxExit ctx cursorAt n st
      else fetchLoop ctx cursorAt statusOk inc exc rest (i + 1) (n + 1)
        (stepNext statusOk inc exc st (NextRes.nrec o))

/-- Lines 53-71: uppercase both region lists, then build the storage criteria.
`time.Unix(req.LastFetchResponseKeyTimestamp, 0)` carries the integer through;
the single-region pushdown applies iff the (uppercased, same length) inclusion
list has exactly one element, in which case that whole list is passed. -/
def buildCriteria (req : FederationFetchRequest) (fetchUntil : Int) : FetchInfectionsCriteria :=
  let regions := req.RegionIdentifiers.map upperStr
  { SinceTimestamp := req.LastFetchResponseKeyTimestamp
    UntilTimestamp := fetchUntil
    LastCursor := req.NextFetchToken
    OnlyLocalProvenance := true
    IncludeRegions := if regions.length = 1 then regions else [] }

/-- `federationServer.fetch`: normalize regions, build criteria, open the
iterator (`nil` iterator = query error = fatal), run the loop from the empty
response. -/
def fetch (req : FederationFetchRequest)
    (itFunc : FetchInfectionsCriteria → Option InfectionIterator)
    (fetchUntil : Int) (ctx : Ctx) (statusOk : Int → Bool) : FetchResult :=
  let inc := req.RegionIdentifiers.map upperStr
  let exc := req.ExcludeRegionIdentifiers.map upperStr
  match itFunc (buildCriteria req fetchUntil) with
  | none => FetchResult.fail
  | some it => fetchLoop ctx it.cursorAt statusOk inc exc it.nexts 0 0 initState

/-! ## Derived response measures used by the theorems -/

/-- Number of `DiagnosisKey` entries under one response entry. -/
def infoCount (e : ContactTracingResponse) : Nat :=
  (e.ContactTracingInfo.map (fun c => c.DiagnosisKeys.length)).sum

/-- Total number of `DiagnosisKey` entries in a response. -/
def totalKeys (l : List ContactTracingResponse) : Nat := (l.map infoCount).sum

/-- All `DiagnosisKey`s sitting in infos answering to ctiKey `k` under region
key `rk`, in order. -/
def ctiKeysUnder (rk k : String) : List ContactTracingInfo → List DiagnosisKeyMsg
  | [] => []
  | c :: cs => (if posKey rk c = k then c.DiagnosisKeys else []) ++ ctiKeysUnder rk k cs

/-- All `DiagnosisKey`s of the response sitting in infos answering to ctiKey
`k`, in response order. -/
def keysUnder (k : String) : List ContactTracingResponse → List DiagnosisKeyMsg
  | [] => []
  | e :: es => ctiKeysUnder (entryKey e) k e.ContactTracingInfo ++ keysUnder k es

/-- Fold step recording region-set keys in first-seen order. -/
def seenFold (acc : List String) (k : String) : List String :=
  if k ∈ acc then acc else acc ++ [k]

/-- First-seen-order deduplication of a key sequence. -/
def firstSeen (ks : List String) : List String := ks.foldl seenFold []

/-- The association list pairing each key of `ks` with its index (offset `n`):
the shape `ctrMap` always has. -/
def idxPairs (n : Nat) : List String → List (String × Nat)
  | [] => []
  | k :: ks => (k, n) :: idxPairs (n + 1) ks

/-! ## Order lemmas for the string comparison -/

theorem charLt_asymm {a b : Char} (h : charLt a b = true) : charLt b a = false := by
  simp only [charLt, decide_eq_true_eq, decide_eq_false_iff_not] at h ⊢
  omega

theorem charLt_false_eq {a b : Char} (h1 : charLt a b = false) (h2 : charLt b a = false) :
    a = b := by
  simp only [charLt, decide_eq_false_iff_not] at h1 h2
  have hn : a.toNat = b.toNat := by omega
  cases a; cases b
  simp only [Char.toNat] at hn
  congr 1
  exact UInt32.toNat.inj hn

theorem charListLt_asymm : ∀ {x y : List Char}, charListLt x y = true → charListLt y x = false
  | _, [], h => by simp [charListLt] at h
  | [], _ :: _, _ => by simp [charListLt]
  | a :: as, b :: bs, h => by
    by_cases hab : charLt a b = true
    · simp [charListLt, charLt_asymm hab, hab]
    · by_cases hba : charLt b a = true
      · simp [charListLt, hab, hba] at h
      · simp only [Bool.not_eq_true] at hab hba
        simp only [charListLt, hab, hba, if_false] at h
        simp [charListLt, hab, hba, charListLt_asymm h]

theorem charListLt_false_antisymm :
    ∀ {x y : List Char}, charListLt x y = false → charListLt y x = false → x = y
  | [], [], _, _ => rfl
  | [], _ :: _, h1, _ => by simp [charListLt] at h1
  | _ :: _, [], _, h2 => by simp [charListLt] at h2
  | a :: as, b :: bs, h1, h2 => by
    by_cases hab : charLt a b = true
    · simp [charListLt, hab] at h1
    · by_cases hba : charLt b a = true
      · simp [charListLt, hba] at h2
      · simp only [Bool.not_eq_true] at hab hba
        simp only [charListLt, hab, hba, if_false] at h1 h2
        have he : a = b := charLt_false_eq hab hba
        have ht : as = bs := charListLt_false_antisymm h1 h2
        rw [he, ht]

theorem charListLt_false_trans :
    ∀ {x y z : List Char}, charListLt y x = false → charListLt z y = false →
      charListLt z x = false
  | [], _y, z, _, _ => by cases z <;> rfl
  | _x :: _xs, [], _, h1, _ => by simp [charListLt] at h1
  | _x :: _xs, _ :: _, [], _, h2 => by simp [charListLt] at h2
  | a :: as, b :: bs, c :: cs, h1, h2 => by
    by_cases hba : charLt b a = true
    · simp [charListLt, hba] at h1
    · by_cases hcb : charLt c b = true
      · simp [charListLt, hcb] at h2
      · simp only [Bool.not_eq_true] at hba hcb
        simp only [charListLt, hba, hcb, if_false] at h1 h2
        have hca : charLt c a = false := by
          simp only [charLt, decide_eq_false_iff_not, decide_eq_true_eq] at hba hcb ⊢
          omega
        by_cases hab : charLt a b = true
        · have hac : charLt a c = true := by
            simp only [charLt, decide_eq_false_iff_not, decide_eq_true_eq] at hab hcb ⊢
            omega
          simp [charListLt, hca, hac]
        · simp only [Bool.not_eq_true] at hab
          simp only [hab, Bool.false_eq_true, false_or] at h1
          have he : a = b := charLt_false_eq hab hba
          by_cases hbc : charLt b c = true
          · have hac : charLt a c = true := he ▸ hbc
            simp [charListLt, hca, hac]
          · simp only [Bool.not_eq_true] at hbc
            simp only [hbc, Bool.false_eq_true, false_or] at h2
            have ht : charListLt cs as = false := charListLt_false_trans h1 h2
            simp only [charListLt, hca, if_false]
            rcases hx : charLt a c with _ | _
            · simpa [hx] using ht
            · simp [hx]

theorem strLe_total {a b : String} (h : strLe a b = false) : strLe b a = true := by
  simp only [strLe, strLt, Bool.not_eq_false', Bool.not_eq_true'] at h ⊢
  exact charListLt_asymm h

theorem strLe_antisymm {a b : String} (h1 : strLe a b = true) (h2 : strLe b a = true) :
    a = b := by
  simp only [strLe, strLt, Bool.not_eq_true'] at h1 h2
  have : a.data = b.data := charListLt_false_antisymm h2 h1
  cases a; cases b; congr 1

theorem strLe_trans {a b c : String} (h1 : strLe a b = true) (h2 : strLe b c = true) :
    strLe a c = true := by
  simp only [strLe, strLt, Bool.not_eq_true'] at h1 h2 ⊢
  exact charListLt_false_trans h1 h2

/-! ## Sortedness and permutation facts for `sortStrings` -/

/-- Ascending sortedness by the Go string order. -/
def SortedStr (l : List String) : Prop := l.Pairwise (fun a b => strLe a b = true)

theorem mem_insertSorted {s x : String} :
    ∀ {l : List String}, x ∈ insertSorted s l → x = s ∨ x ∈ l
  | [], h => by simpa [insertSorted] using h
  | t :: ts, h => by
    by_cases hle : strLe s t = true
    · simp only [insertSorted, hle, if_true] at h
      rcases List.mem_cons.mp h with h1 | h1
      · exact Or.inl h1
      · exact Or.inr h1
    · simp only [insertSorted, hle, if_false] at h
      rcases List.mem_cons.mp h with h | h
      · exact Or.inr (h ▸ List.mem_cons_self t ts)
      · rcases mem_insertSorted h with h | h
        · exact Or.inl h
        · exact Or.inr (List.mem_cons_of_mem t h)

theorem perm_insertSorted (s : String) :
    ∀ l : List String, (insertSorted s l).Perm (s :: l)
  | [] => List.Perm.refl _
  | t :: ts => by
    by_cases hle : strLe s t = true
    · simp [insertSorted, hle]
    · simp only [insertSorted, hle, if_false]
      exact List.Perm.trans (List.Perm.cons t (perm_insertSorted s ts)) (List.Perm.swap s t ts)

theorem perm_sortStrings : ∀ l : List String, (sortStrings l).Perm l
  | [] => List.Perm.refl _
  | s :: ss =>
    ((perm_insertSorted s (sortStrings ss)).trans
      (List.Perm.cons s (perm_sortStrings ss)))

theorem sorted_insertSorted {s : String} :
    ∀ {l : List String}, SortedStr l → SortedStr (insertSorted s l)
  | [], _ => List.Pairwise.cons (by simp) List.Pairwise.nil
  | t :: ts, h => by
    rcases List.pairwise_cons.mp h with ⟨hts, hsts⟩
    by_cases hle : strLe s t = true
    · simp only [insertSorted, hle, if_true]
      refine List.pairwise_cons.mpr ⟨?_, h⟩
      intro x hx
      rcases List.mem_cons.mp hx with h' | h'
      · exact h' ▸ hle
      · exact strLe_trans hle (hts x h')
    · simp only [insertSorted, hle, if_false]
      refine List.pairwise_cons.mpr ⟨?_, sorted_insertSorted hsts⟩
      intro x hx
      rcases mem_insertSorted hx with h' | h'
      · exact h' ▸ strLe_total (by simpa using hle)
      · exact hts x h'

theorem sorted_sortStrings : ∀ l : List String, SortedStr (sortStrings l)
  | [] => List.Pairwise.nil
  | _ :: ss => sorted_insertSorted (sorted_sortStrings ss)

theorem sorted_perm_eq :
    ∀ {l1 l2 : List String}, SortedStr l1 → SortedStr l2 → l1.Perm l2 → l1 = l2
  | [], l2, _, _, hp => (List.perm_nil.mp hp.symm).symm
  | a :: as, [], _, _, hp => absurd hp (by simp)
  | a :: as, b :: bs, h1, h2, hp => by
    rcases List.pairwise_cons.mp h1 with ⟨ha, hatail⟩
    rcases List.pairwise_cons.mp h2 with ⟨hb, hbtail⟩
    have hab : a = b := by
      have hma : a ∈ b :: bs := hp.subset (List.mem_cons_self a as)
      have hmb : b ∈ a :: as := hp.symm.subset (List.mem_cons_self b bs)
      rcases List.mem_cons.mp hma with h' | h'
      · exact h'
      · rcases List.mem_cons.mp hmb with h'' | h''
        · exact h''.symm
        · exact strLe_antisymm (ha b h'') (hb a h')
    subst hab
    have : as = bs := sorted_perm_eq hatail hbtail hp.cons_inv
    rw [this]

theorem sortStrings_perm_eq {l1 l2 : List String} (h : l1.Perm l2) :
    sortStrings l1 = sortStrings l2 :=
  sorted_perm_eq (sorted_sortStrings l1) (sorted_sortStrings l2)
    (((perm_sortStrings l1).trans h).trans (perm_sortStrings l2).symm)

theorem regionKey_perm_eq {l1 l2 : List String} (h : l1.Perm l2) :
    regionKey l1 = regionKey l2 := by
  unfold regionKey
  rw [sortStrings_perm_eq h]

/-! ## Lemmas about `nth`, `modifyIdx`, `alookup`, `idxPairs` -/

theorem nth_lt {α : Type} : ∀ {l : List α} {i : Nat} {a : α}, nth l i = some a → i < l.length
  | [], _, _, h => by simp [nth] at h
  | _ :: _, 0, _, _ => by simp
  | _ :: as, i + 1, a, h => by
    have := nth_lt (l := as) (i := i) (a := a) h
    simpa using this

theorem nth_len_le {α : Type} : ∀ {l : List α} {i : Nat}, l.length ≤ i → nth l i = none
  | [], _, _ => rfl
  | _ :: _, 0, h => by simp at h
  | _ :: as, i + 1, h => nth_len_le (l := as) (by simpa using h)

theorem nth_mem {α : Type} : ∀ {l : List α} {i : Nat} {a : α}, nth l i = some a → a ∈ l
  | [], _, _, h => by simp [nth] at h
  | b :: _, 0, a, h => by
    simp only [nth, Option.some.injEq] at h
    exact h ▸ List.mem_cons_self b _
  | b :: as, i + 1, a, h => List.mem_cons_of_mem b (nth_mem (l := as) h)

theorem mem_nth {α : Type} : ∀ {l : List α} {a : α}, a ∈ l → ∃ i, nth l i = some a
  | [], _, h => by simp at h
  | b :: as, a, h => by
    rcases List.mem_cons.mp h with h1 | h1
    · exact ⟨0, by simp [nth, h1]⟩
    · rcases mem_nth (l := as) h1 with ⟨i, hi⟩
      exact ⟨i + 1, hi⟩

theorem nth_append_left {α : Type} :
    ∀ {l l' : List α} {i : Nat}, i < l.length → nth (l ++ l') i = nth l i
  | [], _, _, h => by simp at h
  | _ :: _, _, 0, _ => rfl
  | _ :: as, l', i + 1, h => nth_append_left (l := as) (by simpa using h)

theorem nth_append_len {α : Type} :
    ∀ {l l' : List α} {a : α}, nth (l ++ a :: l') l.length = some a
  | [], _, _ => rfl
  | _ :: as, _, _ => nth_append_len (l := as)

theorem nth_map {α β : Type} (f : α → β) :
    ∀ (l : List α) (i : Nat), nth (l.map f) i = (nth l i).map f
  | [], _ => rfl
  | _ :: _, 0 => rfl
  | _ :: as, i + 1 => nth_map f as i

theorem length_modifyIdx {α : Type} :
    ∀ (l : List α) (i : Nat) (f : α → α), (modifyIdx l i f).length = l.length
  | [], _, _ => rfl
  | _ :: _, 0, _ => rfl
  | _ :: as, i + 1, f => by simp [modifyIdx, length_modifyIdx as i f]

theorem nth_modifyIdx_self {α : Type} :
    ∀ (l : List α) (i : Nat) (f : α → α), nth (modifyIdx l i f) i = (nth l i).map f
  | [], _, _ => rfl
  | _ :: _, 0, _ => rfl
  | _ :: as, i + 1, f => nth_modifyIdx_self as i f

theorem nth_modifyIdx_ne {α : Type} :
    ∀ (l : List α) (i j : Nat) (f : α → α), i ≠ j → nth (modifyIdx l i f) j = nth l j
  | [], _, _, _, _ => rfl
  | _ :: _, 0, 0, _, h => absurd rfl h
  | _ :: _, 0, _ + 1, _, _ => rfl
  | _ :: _, _ + 1, 0, _, _ => rfl
  | _ :: as, i + 1, j + 1, f, h =>
    nth_modifyIdx_ne as i j f (fun hij => h (by rw [hij]))

theorem map_modifyIdx {α β : Type} (g : α → β) :
    ∀ (l : List α) (i : Nat) (f : α → α), (∀ a, g (f a) = g a) →
      (modifyIdx l i f).map g = l.map g
  | [], _, _, _ => rfl
  | a :: as, 0, f, hg => by simp [modifyIdx, hg a]
  | a :: as, i + 1, f, hg => by simp [modifyIdx, map_modifyIdx g as i f hg]

theorem alookup_eq_none_iff {β : Type} {k : String} :
    ∀ {m : List (String × β)}, alookup k m = none ↔ k ∉ m.map Prod.fst
  | [] => by simp [alookup]
  | p :: rest => by
    by_cases hp : p.1 = k
    · simp [alookup, hp]
    · simp only [alookup, hp, if_false, List.map_cons, List.mem_cons]
      rw [alookup_eq_none_iff (m := rest)]
      constructor
      · intro h h'
        rcases h' with h' | h'
        · exact hp h'.symm
        · exact h h'
      · intro h h'
        exact h (Or.inr h')

theorem alookup_mem {β : Type} {k : String} {v : β} :
    ∀ {m : List (String × β)}, alookup k m = some v → (k, v) ∈ m
  | [], h => by simp [alookup] at h
  | p :: rest, h => by
    by_cases hp : p.1 = k
    · simp only [alookup, hp, if_true, Option.some.injEq] at h
      have : p = (k, v) := by
        cases p
        simp only at hp h
        rw [hp, h]
      exact this ▸ List.mem_cons_self p rest
    · simp only [alookup, hp, if_false] at h
      exact List.mem_cons_of_mem p (alookup_mem h)

theorem alookup_append_left {β : Type} {k : String} {v : β} :
    ∀ {m m' : List (String × β)}, alookup k m = some v → alookup k (m ++ m') = some v
  | [], _, h => by simp [alookup] at h
  | p :: rest, m', h => by
    by_cases hp : p.1 = k
    · simpa [alookup, hp] using h
    · simp only [alookup, hp, if_false] at h ⊢
      exact alookup_append_left h

theorem alookup_append_right {β : Type} {k : String} :
    ∀ {m m' : List (String × β)}, alookup k m = none → alookup k (m ++ m') = alookup k m'
  | [], _, _ => rfl
  | p :: rest, m', h => by
    by_cases hp : p.1 = k
    · simp [alookup, hp] at h
    · simp only [alookup, hp, if_false] at h ⊢
      exact alookup_append_right h

theorem mem_fst_unique {β : Type} {k : String} {v1 v2 : β} :
    ∀ {m : List (String × β)}, (m.map Prod.fst).Nodup → (k, v1) ∈ m → (k, v2) ∈ m → v1 = v2
  | [], _, h1, _ => by simp at h1
  | p :: rest, hn, h1, h2 => by
    rcases List.pairwise_cons.mp hn with ⟨hhead, htail⟩
    rcases List.mem_cons.mp h1 with h1' | h1'
    · rcases List.mem_cons.mp h2 with h2' | h2'
      · rw [← h1'] at h2'
        exact congrArg Prod.snd h2'.symm
      · exfalso
        exact hhead k (List.mem_map_of_mem Prod.fst h2') (congrArg Prod.fst h1').symm
    · rcases List.mem_cons.mp h2 with h2' | h2'
      · exfalso
        exact hhead k (List.mem_map_of_mem Prod.fst h1') (congrArg Prod.fst h2').symm
      · exact mem_fst_unique htail h1' h2'

theorem idxPairs_fst : ∀ (n : Nat) (ks : List String), (idxPairs n ks).map Prod.fst = ks
  | _, [] => rfl
  | n, k :: ks => by simp [idxPairs, idxPairs_fst (n + 1) ks]

theorem idxPairs_append :
    ∀ (n : Nat) (ks : List String) (k : String),
      idxPairs n (ks ++ [k]) = idxPairs n ks ++ [(k, n + ks.length)]
  | n, [], k => by simp [idxPairs]
  | n, k' :: ks, k => by
    have h : n + (ks.length + 1) = n + 1 + ks.length := by omega
    simp [idxPairs, idxPairs_append (n + 1) ks k, h]

theorem alookup_idxPairs_some :
    ∀ {n : Nat} {ks : List String} {k : String} {i : Nat},
      alookup k (idxPairs n ks) = some i →
        ∃ j, i = n + j ∧ nth ks j = some k
  | _, [], _, _, h => by simp [idxPairs, alookup] at h
  | n, k' :: ks, k, i, h => by
    by_cases hk : k' = k
    · refine ⟨0, ?_, by simp [nth, hk]⟩
      simp only [idxPairs, alookup, hk, if_true, Option.some.injEq] at h
      omega
    · simp only [idxPairs, alookup, hk, if_false] at h
      rcases alookup_idxPairs_some h with ⟨j, hj, hnth⟩
      exact ⟨j + 1, by omega, hnth⟩

theorem alookup_idxPairs_none {n : Nat} {ks : List String} {k : String}
    (h : k ∉ ks) : alookup k (idxPairs n ks) = none := by
  rw [alookup_eq_none_iff, idxPairs_fst]
  exact h

/-! ## Unfolding and run lemmas for the loop -/

theorem ctxIsDone_mono {c : Ctx} {i j : Nat} (h : ctxIsDone c j = false) (hij : i ≤ j) :
    ctxIsDone c i = false := by
  rcases hda : c.doneAfter with _ | k
  · unfold ctxIsDone
    rw [hda]
  · unfold ctxIsDone at h ⊢
    rw [hda] at h ⊢
    simp only [decide_eq_false_iff_not] at h ⊢
    omega

theorem fetchLoop_ctx {ctx : Ctx} {cursorAt : Nat → Option String}
    {statusOk : Int → Bool} {inc exc : List String} {nexts : List NextRes} {i n : Nat}
    {st : AggState} (hd : ctxIsDone ctx i = true) :
    fetchLoop ctx cursorAt statusOk inc exc nexts i n st = ctxExit ctx cursorAt n st := by
  cases nexts with
  | nil => simp [fetchLoop, hd]
  | cons r rest => cases r <;> simp [fetchLoop, hd]

theorem ctxExit_other {ctx : Ctx} {cursorAt : Nat → Option String} {n : Nat} {st : AggState}
    (hr : ctx.reason = CtxErr.other) :
    ctxExit ctx cursorAt n st = FetchResult.fail := by
  simp [ctxExit, hr]

theorem ctxExit_curErr {ctx : Ctx} {cursorAt : Nat → Option String} {n : Nat} {st : AggState}
    (hr : ctx.reason ≠ CtxErr.other) (hc : cursorAt n = none) :
    ctxExit ctx cursorAt n st = FetchResult.fail := by
  simp [ctxExit, hr, hc]

theorem ctxExit_ok {ctx : Ctx} {cursorAt : Nat → Option String} {n : Nat} {st : AggState}
    {c : String} (hr : ctx.reason ≠ CtxErr.other) (hc : cursorAt n = some c) :
    ctxExit ctx cursorAt n st = FetchResult.ok (mkResp st true c) := by
  simp [ctxExit, hr, hc]

theorem fetchLoop_ctx_other {ctx : Ctx} {cursorAt : Nat → Option String}
    {statusOk : Int → Bool} {inc exc : List String} {nexts : List NextRes} {i n : Nat}
    {st : AggState} (hd : ctxIsDone ctx i = true) (hr : ctx.reason = CtxErr.other) :
    fetchLoop ctx cursorAt statusOk inc exc nexts i n st = FetchResult.fail := by
  rw [fetchLoop_ctx hd, ctxExit_other hr]

theorem fetchLoop_ctx_curErr {ctx : Ctx} {cursorAt : Nat → Option String}
    {statusOk : Int → Bool} {inc exc : List String} {nexts : List NextRes} {i n : Nat}
    {st : AggState} (hd : ctxIsDone ctx i = true) (hr : ctx.reason ≠ CtxErr.other)
    (hc : cursorAt n = none) :
    fetchLoop ctx cursorAt statusOk inc exc nexts i n st = FetchResult.fail := by
  rw [fetchLoop_ctx hd, ctxExit_curErr hr hc]

theorem fetchLoop_ctx_ok {ctx : Ctx} {cursorAt : Nat → Option String}
    {statusOk : Int → Bool} {inc exc : List String} {nexts : List NextRes} {i n : Nat}
    {st : AggState} {c : String} (hd : ctxIsDone ctx i = true) (hr : ctx.reason ≠ CtxErr.other)
    (hc : cursorAt n = some c) :
    fetchLoop ctx cursorAt statusOk inc exc nexts i n st =
      FetchResult.ok (mkResp st true c) := by
  rw [fetchLoop_ctx hd, ctxExit_ok hr hc]

theorem fetchLoop_nerr {ctx : Ctx} {cursorAt : Nat → Option String}
    {statusOk : Int → Bool} {inc exc : List String} {rest : List NextRes} {i n : Nat}
    {st : AggState} (hd : ctxIsDone ctx i = false) :
    fetchLoop ctx cursorAt statusOk inc exc (NextRes.nerr :: rest) i n st =
      FetchResult.fail := by
  simp [fetchLoop, hd]

theorem fetchLoop_ndone {ctx : Ctx} {cursorAt : Nat → Option String}
    {statusOk : Int → Bool} {inc exc : List String} {rest : List NextRes} {i n : Nat}
    {st : AggState} (hd : ctxIsDone ctx i = false) :
    fetchLoop ctx cursorAt statusOk inc exc (NextRes.ndone :: rest) i n st =
      FetchResult.ok (mkResp st false "") := by
  simp [fetchLoop, hd]

theorem fetchLoop_nrec {ctx : Ctx} {cursorAt : Nat → Option String}
    {statusOk : Int → Bool} {inc exc : List String} {o : Option Infection}
    {rest : List NextRes} {i n : Nat} {st : AggState} (hd : ctxIsDone ctx i = false) :
    fetchLoop ctx cursorAt statusOk inc exc (NextRes.nrec o :: rest) i n st =
      fetchLoop ctx cursorAt statusOk inc exc rest (i + 1) (n + 1)
        (stepNext statusOk inc exc st (NextRes.nrec o)) := by
  simp [fetchLoop, hd]

theorem runPre_cons {statusOk : Int → Bool} {inc exc : List String} {st : AggState}
    {r : NextRes} {l : List NextRes} :
    runPre statusOk inc exc st (r :: l) =
      runPre statusOk inc exc (stepNext statusOk inc exc st r) l := rfl

/-- The loop exits with a partial response when the signal (deadline/cancel)
fires after consuming exactly `pre` and the cursor succeeds; no element of
`rest` is inspected. -/
theorem fetchLoop_partial {ctx : Ctx} {cursorAt : Nat → Option String}
    {statusOk : Int → Bool} {inc exc : List String} {c : String} :
    ∀ (pre : List NextRes) (rest : List NextRes) (i n : Nat) (st : AggState),
      ctx.doneAfter = some (i + pre.length) → ctx.reason ≠ CtxErr.other →
      pre.all NextRes.isRec = true → cursorAt (n + pre.length) = some c →
      fetchLoop ctx cursorAt statusOk inc exc (pre ++ rest) i n st =
        FetchResult.ok (mkResp (runPre statusOk inc exc st pre) true c)
  | [], rest, i, n, st, hda, hr, _, hc => by
    have hd : ctxIsDone ctx i = true := by
      unfold ctxIsDone
      rw [hda]
      simp
    rw [List.nil_append, fetchLoop_ctx hd, ctxExit_ok hr (by simpa using hc)]
    rfl
  | r :: pre, rest, i, n, st, hda, hr, hall, hc => by
    have hd : ctxIsDone ctx i = false := by
      unfold ctxIsDone
      rw [hda]
      simp only [List.length_cons, decide_eq_false_iff_not]
      omega
    rcases List.all_eq_true.mp hall r (List.mem_cons_self r pre) with hrec
    cases r with
    | nerr => simp [NextRes.isRec] at hrec
    | ndone => simp [NextRes.isRec] at hrec
    | nrec o =>
        rw [List.cons_append, fetchLoop_nrec hd, runPre_cons]
        apply fetchLoop_partial pre rest (i + 1) (n + 1)
        · rw [hda]
          congr 1
          simp only [List.length_cons]
          omega
        · exact hr
        · exact List.all_eq_true.mpr fun x hx =>
            List.all_eq_true.mp hall x (List.mem_cons_of_mem _ hx)
        · rw [← hc]
          congr 1
          simp only [List.length_cons]
          omega

/-- The loop completes normally when exhaustion is reached before the signal:
no cursor, not partial. -/
theorem fetchLoop_complete {ctx : Ctx} {cursorAt : Nat → Option String}
    {statusOk : Int → Bool} {inc exc : List String} :
    ∀ (pre : List NextRes) (rest : List NextRes) (i n : Nat) (st : AggState),
      ctxIsDone ctx (i + pre.length) = false →
      pre.all NextRes.isRec = true →
      fetchLoop ctx cursorAt statusOk inc exc (pre ++ NextRes.ndone :: rest) i n st =
        FetchResult.ok (mkResp (runPre statusOk inc exc st pre) false "")
  | [], rest, i, n, st, hd, _ => by
    simpa [runPre] using fetchLoop_ndone (by simpa using hd)
  | r :: pre, rest, i, n, st, hd, hall => by
    have hdi : ctxIsDone ctx i = false := ctxIsDone_mono hd (by simp)
    rcases List.all_eq_true.mp hall r (List.mem_cons_self r pre) with hrec
    cases r with
    | nerr => simp [NextRes.isRec] at hrec
    | ndone => simp [NextRes.isRec] at hrec
    | nrec o =>
        rw [List.cons_append, fetchLoop_nrec hdi, runPre_cons]
        apply fetchLoop_complete pre rest (i + 1) (n + 1)
        · rw [← hd]
          congr 1
          simp only [List.length_cons]
          omega
        · exact List.all_eq_true.mpr fun x hx =>
            List.all_eq_true.mp hall x (List.mem_cons_of_mem _ hx)

/-- An iterator error reached before the signal aborts the call. -/
theorem fetchLoop_iterErr {ctx : Ctx} {cursorAt : Nat → Option String}
    {statusOk : Int → Bool} {inc exc : List String} :
    ∀ (pre : List NextRes) (rest : List NextRes) (i n : Nat) (st : AggState),
      ctxIsDone ctx (i + pre.length) = false →
      pre.all NextRes.isRec = true →
      fetchLoop ctx cursorAt statusOk inc exc (pre ++ NextRes.nerr :: rest) i n st =
        FetchResult.fail
  | [], rest, i, n, st, hd, _ => by
    simpa using fetchLoop_nerr (by simpa using hd)
  | r :: pre, rest, i, n, st, hd, hall => by
    have hdi : ctxIsDone ctx i = false := ctxIsDone_mono hd (by simp)
    rcases List.all_eq_true.mp hall r (List.mem_cons_self r pre) with hrec
    cases r with
    | nerr => simp [NextRes.isRec] at hrec
    | ndone => simp [NextRes.isRec] at hrec
    | nrec o =>
        rw [List.cons_append, fetchLoop_nrec hdi]
        apply fetchLoop_iterErr pre rest (i + 1) (n + 1)
        · rw [← hd]
          congr 1
          simp only [List.length_cons]
          omega
        · exact List.all_eq_true.mpr fun x hx =>
            List.all_eq_true.mp hall x (List.mem_cons_of_mem _ hx)

/-- A signal with deadline/cancel reason but failing cursor retrieval aborts. -/
theorem fetchLoop_cursorErr {ctx : Ctx} {cursorAt : Nat → Option String}
    {statusOk : Int → Bool} {inc exc : List String} :
    ∀ (pre : List NextRes) (rest : List NextRes) (i n : Nat) (st : AggState),
      ctx.doneAfter = some (i + pre.length) → ctx.reason ≠ CtxErr.other →
      pre.all NextRes.isRec = true → cursorAt (n + pre.length) = none →
      fetchLoop ctx cursorAt statusOk inc exc (pre ++ rest) i n st = FetchResult.fail
  | [], rest, i, n, st, hda, hr, _, hc => by
    have hd : ctxIsDone ctx i = true := by
      unfold ctxIsDone
      rw [hda]
      simp
    exact fetchLoop_ctx_curErr hd hr (by simpa using hc)
  | r :: pre, rest, i, n, st, hda, hr, hall, hc => by
    have hd : ctxIsDone ctx i = false := by
      unfold ctxIsDone
      rw [hda]
      simp only [List.length_cons, decide_eq_false_iff_not]
      omega
    rcases List.all_eq_true.mp hall r (List.mem_cons_self r pre) with hrec
    cases r with
    | nerr => simp [NextRes.isRec] at hrec
    | ndone => simp [NextRes.isRec] at hrec
    | nrec o =>
        rw [List.cons_append, fetchLoop_nrec hd]
        apply fetchLoop_cursorErr pre rest (i + 1) (n + 1)
        · rw [hda]
          congr 1
          simp only [List.length_cons]
          omega
        · exact hr
        · exact List.all_eq_true.mpr fun x hx =>
            List.all_eq_true.mp hall x (List.mem_cons_of_mem _ hx)
        · rw [← hc]
          congr 1
          simp only [List.length_cons]
          omega

/-- A signal with an unexpected reason aborts the call. -/
theorem fetchLoop_otherErr {ctx : Ctx} {cursorAt : Nat → Option String}
    {statusOk : Int → Bool} {inc exc : List String} :
    ∀ (pre : List NextRes) (rest : List NextRes) (i n : Nat) (st : AggState),
      ctx.doneAfter = some (i + pre.length) → ctx.reason = CtxErr.other →
      pre.all NextRes.isRec = true →
      fetchLoop ctx cursorAt statusOk inc exc (pre ++ rest) i n st = FetchResult.fail
  | [], rest, i, n, st, hda, hr, _ => by
    have hd : ctxIsDone ctx i = true := by
      unfold ctxIsDone
      rw [hda]
      simp
    exact fetchLoop_ctx_other hd hr
  | r :: pre, rest, i, n, st, hda, hr, hall => by
    have hd : ctxIsDone ctx i = false := by
      unfold ctxIsDone
      rw [hda]
      simp only [List.length_cons, decide_eq_false_iff_not]
      omega
    rcases List.all_eq_true.mp hall r (List.mem_cons_self r pre) with hrec
    cases r with
    | nerr => simp [NextRes.isRec] at hrec
    | ndone => simp [NextRes.isRec] at hrec
    | nrec o =>
        rw [List.cons_append, fetchLoop_nrec hd]
        apply fetchLoop_otherErr pre rest (i + 1) (n + 1)
        · rw [hda]
          congr 1
          simp only [List.length_cons]
          omega
        · exact hr
        · exact List.all_eq_true.mpr fun x hx =>
            List.all_eq_true.mp hall x (List.mem_cons_of_mem _ hx)

/-! ## More list lemmas -/

theorem nth_append_single {α : Type} :
    ∀ {l : List α} {x : α} {i : Nat} {a : α}, nth (l ++ [x]) i = some a →
      (i < l.length ∧ nth l i = some a) ∨ (i = l.length ∧ a = x)
  | [], x, 0, a, h => by
    simp only [List.nil_append, nth, Option.some.injEq] at h
    exact Or.inr ⟨rfl, h.symm⟩
  | [], x, i + 1, a, h => by simp [nth] at h
  | b :: l, x, 0, a, h => by
    simp only [List.cons_append, nth, Option.some.injEq] at h
    exact Or.inl ⟨by simp, by simp [nth, h]⟩
  | b :: l, x, i + 1, a, h => by
    rcases nth_append_single (l := l) (by simpa [nth] using h) with ⟨h1, h2⟩ | ⟨h1, h2⟩
    · exact Or.inl ⟨by simpa using h1, by simpa [nth] using h2⟩
    · exact Or.inr ⟨by simp [h1], h2⟩

theorem mem_modifyIdx {α : Type} :
    ∀ {l : List α} {i : Nat} {f : α → α} {x : α}, x ∈ modifyIdx l i f →
      x ∈ l ∨ ∃ a, a ∈ l ∧ x = f a
  | [], _, _, _, h => by simp [modifyIdx] at h
  | a :: as, 0, f, x, h => by
    rcases List.mem_cons.mp h with h1 | h1
    · exact Or.inr ⟨a, List.mem_cons_self a as, h1⟩
    · exact Or.inl (List.mem_cons_of_mem a h1)
  | a :: as, i + 1, f, x, h => by
    rcases List.mem_cons.mp h with h1 | h1
    · exact Or.inl (h1 ▸ List.mem_cons_self a as)
    · rcases mem_modifyIdx h1 with h2 | ⟨b, hb, hx⟩
      · exact Or.inl (List.mem_cons_of_mem a h2)
      · exact Or.inr ⟨b, List.mem_cons_of_mem a hb, hx⟩

theorem pairwise_of_nth {α : Type} {R : α → α → Prop} :
    ∀ {l : List α}, (∀ i j a b, i < j → nth l i = some a → nth l j = some b → R a b) →
      l.Pairwise R
  | [], _ => List.Pairwise.nil
  | a :: as, h => by
    refine List.pairwise_cons.mpr ⟨?_, ?_⟩
    · intro b hb
      rcases mem_nth hb with ⟨j, hj⟩
      exact h 0 (j + 1) a b (by omega) rfl (by simpa [nth] using hj)
    · exact pairwise_of_nth fun i j x y hij hx hy =>
        h (i + 1) (j + 1) x y (by omega) (by simpa [nth] using hx)
          (by simpa [nth] using hy)

/-! ## The aggregation-state invariant -/

/-- Consistency of the two map indices with the response under construction:
`ctrMap` is exactly the key-to-index table of the response entries (distinct
keys), and `ctiMap` is a bijection between registered ctiKeys (distinct) and
the positions of the infos, each key matching its position's `posKey`.
Entries carry sorted region lists. -/
structure AggInv (st : AggState) : Prop where
  ctr_eq : st.ctrMap = idxPairs 0 (st.Response.map entryKey)
  ctr_nodup : (st.Response.map entryKey).Nodup
  ctr_sorted : ∀ e, e ∈ st.Response → SortedStr e.RegionIdentifiers
  cti_nodup : (st.ctiMap.map Prod.fst).Nodup
  cti_sound : ∀ k i j, (k, (i, j)) ∈ st.ctiMap →
      ∃ e c, nth st.Response i = some e ∧ nth e.ContactTracingInfo j = some c ∧
        k = posKey (entryKey e) c
  cti_comp : ∀ i e j c, nth st.Response i = some e → nth e.ContactTracingInfo j = some c →
      (posKey (entryKey e) c, (i, j)) ∈ st.ctiMap

theorem initState_inv : AggInv initState := by
  constructor
  · rfl
  · exact List.Pairwise.nil
  · intro e he
    simp [initState] at he
  · exact List.Pairwise.nil
  · intro k i j h
    simp [initState] at h
  · intro i e j c h
    simp [initState, nth] at h

/-! ## Lemmas about the derived measures -/

theorem keysUnder_append (k : String) :
    ∀ (l l' : List ContactTracingResponse),
      keysUnder k (l ++ l') = keysUnder k l ++ keysUnder k l'
  | [], l' => rfl
  | e :: es, l' => by
    show ctiKeysUnder (entryKey e) k e.ContactTracingInfo ++ keysUnder k (es ++ l') =
      (ctiKeysUnder (entryKey e) k e.ContactTracingInfo ++ keysUnder k es) ++ keysUnder k l'
    rw [keysUnder_append k es, List.append_assoc]

theorem totalKeys_append (l l' : List ContactTracingResponse) :
    totalKeys (l ++ l') = totalKeys l + totalKeys l' := by
  simp [totalKeys]

theorem totalKeys_cons (e : ContactTracingResponse) (es : List ContactTracingResponse) :
    totalKeys (e :: es) = infoCount e + totalKeys es := by
  simp [totalKeys]

/-! ## Lookup characterizations via the invariant -/

theorem alookup_ctr_some {st : AggState} (hInv : AggInv st) {k : String} {i : Nat}
    (h : alookup k st.ctrMap = some i) :
    ∃ e, nth st.Response i = some e ∧ entryKey e = k := by
  rw [hInv.ctr_eq] at h
  rcases alookup_idxPairs_some h with ⟨j, hj, hnth⟩
  have hij : i = j := by omega
  subst hij
  rw [nth_map entryKey] at hnth
  cases he : nth st.Response i with
  | none => rw [he] at hnth; simp at hnth
  | some e =>
      rw [he] at hnth
      exact ⟨e, rfl, by simpa using hnth⟩

theorem alookup_ctr_none {st : AggState} (hInv : AggInv st) {k : String}
    (h : alookup k st.ctrMap = none) : k ∉ st.Response.map entryKey := by
  rw [hInv.ctr_eq, alookup_eq_none_iff, idxPairs_fst] at h
  exact h

/-! ## Facts about `findOrAddCtr` -/

theorem findOrAddCtr_inv {st : AggState} {inf : Infection} (hInv : AggInv st) :
    AggInv (findOrAddCtr st inf).1 ∧
    (findOrAddCtr st inf).1.ctiMap = st.ctiMap ∧
    (findOrAddCtr st inf).1.ts = st.ts ∧
    (∃ e, nth (findOrAddCtr st inf).1.Response (findOrAddCtr st inf).2 = some e ∧
        entryKey e = ctrKeyOf inf) := by
  rcases hl : alookup (ctrKeyOf inf) st.ctrMap with _ | i
  · -- creation case
    have hnotin : ctrKeyOf inf ∉ st.Response.map entryKey := alookup_ctr_none hInv hl
    have hek : entryKey (⟨sortStrings inf.Regions, []⟩ : ContactTracingResponse) =
        ctrKeyOf inf := rfl
    simp only [findOrAddCtr, hl]
    refine ⟨?_, by trivial, by trivial, ?_⟩
    · constructor
      · rw [List.map_append, hInv.ctr_eq]
        simp only [List.map_cons, List.map_nil, hek, idxPairs_append, Nat.zero_add,
          List.length_map]
      · rw [List.map_append, List.nodup_append]
        refine ⟨hInv.ctr_nodup, by simp, ?_⟩
        intro a ha hb
        simp only [List.map_cons, List.map_nil, hek, List.mem_singleton] at hb
        exact hnotin (hb ▸ ha)
      · intro e he
        rcases List.mem_append.mp he with he1 | he1
        · exact hInv.ctr_sorted e he1
        · have he2 : e = (⟨sortStrings inf.Regions, []⟩ : ContactTracingResponse) := by
            simpa using he1
          rw [he2]
          exact sorted_sortStrings inf.Regions
      · exact hInv.cti_nodup
      · intro k i j hk
        rcases hInv.cti_sound k i j hk with ⟨e, c, he, hc, hkey⟩
        exact ⟨e, c, by rw [nth_append_left (nth_lt he), he], hc, hkey⟩
      · intro i e j c he hc
        rcases nth_append_single he with ⟨_, he2⟩ | ⟨_, he2⟩
        · exact hInv.cti_comp i e j c he2 hc
        · rw [he2] at hc
          simp [nth] at hc
    · exact ⟨_, nth_append_len, hek⟩
  · -- lookup case
    rcases alookup_ctr_some hInv hl with ⟨e, he, hk⟩
    simp only [findOrAddCtr, hl]
    exact ⟨hInv, by trivial, by trivial, e, he, hk⟩

/-! ## `findOrAddCtr` transfer lemmas -/

theorem findOrAddCtr_ctiMap {st : AggState} {inf : Infection} :
    (findOrAddCtr st inf).1.ctiMap = st.ctiMap := by
  rcases hl : alookup (ctrKeyOf inf) st.ctrMap with _ | i <;> simp [findOrAddCtr, hl]

theorem findOrAddCtr_ts {st : AggState} {inf : Infection} :
    (findOrAddCtr st inf).1.ts = st.ts := by
  rcases hl : alookup (ctrKeyOf inf) st.ctrMap with _ | i <;> simp [findOrAddCtr, hl]

theorem findOrAddCtr_keysUnder {st : AggState} {inf : Infection} (k : String) :
    keysUnder k (findOrAddCtr st inf).1.Response = keysUnder k st.Response := by
  rcases hl : alookup (ctrKeyOf inf) st.ctrMap with _ | i
  · simp only [findOrAddCtr, hl]
    rw [keysUnder_append]
    simp [keysUnder, ctiKeysUnder]
  · simp [findOrAddCtr, hl]

theorem findOrAddCtr_totalKeys {st : AggState} {inf : Infection} :
    totalKeys (findOrAddCtr st inf).1.Response = totalKeys st.Response := by
  rcases hl : alookup (ctrKeyOf inf) st.ctrMap with _ | i
  · simp only [findOrAddCtr, hl]
    rw [totalKeys_append]
    simp [totalKeys, infoCount]
  · simp [findOrAddCtr, hl]

theorem findOrAddCtr_entryKeys {st : AggState} {inf : Infection} (hInv : AggInv st) :
    (findOrAddCtr st inf).1.Response.map entryKey =
      seenFold (st.Response.map entryKey) (ctrKeyOf inf) := by
  rcases hl : alookup (ctrKeyOf inf) st.ctrMap with _ | i
  · have hnotin : ctrKeyOf inf ∉ st.Response.map entryKey := alookup_ctr_none hInv hl
    simp only [findOrAddCtr, hl, List.map_append]
    unfold seenFold
    rw [if_neg hnotin]
    rfl
  · rcases alookup_ctr_some hInv hl with ⟨e, he, hk⟩
    have hmem : ctrKeyOf inf ∈ st.Response.map entryKey :=
      hk ▸ List.mem_map_of_mem entryKey (nth_mem he)
    simp only [findOrAddCtr, hl]
    unfold seenFold
    rw [if_pos hmem]

/-! ## `keysUnder`/`totalKeys` under the two mutations -/

theorem ctiKeysUnder_append2 (rk k : String) :
    ∀ (cs cs' : List ContactTracingInfo),
      ctiKeysUnder rk k (cs ++ cs') = ctiKeysUnder rk k cs ++ ctiKeysUnder rk k cs'
  | [], cs' => rfl
  | c :: cs, cs' => by
    show (if posKey rk c = k then c.DiagnosisKeys else []) ++ ctiKeysUnder rk k (cs ++ cs') = _
    rw [ctiKeysUnder_append2 rk k cs cs', ← List.append_assoc]
    rfl

theorem ctiKeysUnder_nil_of {rk k : String} :
    ∀ {cs : List ContactTracingInfo},
      (∀ j c, nth cs j = some c → posKey rk c ≠ k) → ctiKeysUnder rk k cs = []
  | [], _ => rfl
  | c :: cs, h => by
    have h0 : posKey rk c ≠ k := h 0 c rfl
    show (if posKey rk c = k then c.DiagnosisKeys else []) ++ ctiKeysUnder rk k cs = []
    rw [if_neg h0, ctiKeysUnder_nil_of (fun j c' hc' => h (j + 1) c' hc')]
    rfl

theorem keysUnder_nil_of {k : String} :
    ∀ {l : List ContactTracingResponse},
      (∀ i e j c, nth l i = some e → nth e.ContactTracingInfo j = some c →
        posKey (entryKey e) c ≠ k) →
      keysUnder k l = []
  | [], _ => rfl
  | e :: es, h => by
    show ctiKeysUnder (entryKey e) k e.ContactTracingInfo ++ keysUnder k es = []
    rw [ctiKeysUnder_nil_of (fun j c hc => h 0 e j c rfl hc),
      keysUnder_nil_of (fun i e' j c he hc => h (i + 1) e' j c he hc)]
    rfl

theorem ctiKeysUnder_modify_unique {rk k : String} {dk : DiagnosisKeyMsg} :
    ∀ {cs : List ContactTracingInfo} {j : Nat} {c : ContactTracingInfo},
      nth cs j = some c → posKey rk c = k →
      (∀ j' c', nth cs j' = some c' → posKey rk c' = k → j' = j) →
      ctiKeysUnder rk k (modifyIdx cs j (withKey dk)) = ctiKeysUnder rk k cs ++ [dk]
  | [], j, c, hj, _, _ => by simp [nth] at hj
  | c0 :: cs, 0, c, hj, hk, huniq => by
    have hc : c0 = c := by simpa [nth] using hj
    subst hc
    have hrest : ctiKeysUnder rk k cs = [] :=
      ctiKeysUnder_nil_of (fun j' c' hc' hk' =>
        absurd (huniq (j' + 1) c' (by simpa [nth] using hc') hk') (by omega))
    have hkm : posKey rk (withKey dk c0) = k := hk
    show (if posKey rk (withKey dk c0) = k then (withKey dk c0).DiagnosisKeys else []) ++
        ctiKeysUnder rk k cs =
      ((if posKey rk c0 = k then c0.DiagnosisKeys else []) ++ ctiKeysUnder rk k cs) ++ [dk]
    rw [if_pos hkm, if_pos hk, hrest]
    simp [withKey]
  | c0 :: cs, j + 1, c, hj, hk, huniq => by
    have h0 : posKey rk c0 ≠ k := fun hk0 =>
      absurd (huniq 0 c0 rfl hk0) (by omega)
    show (if posKey rk c0 = k then c0.DiagnosisKeys else []) ++
        ctiKeysUnder rk k (modifyIdx cs j (withKey dk)) = _
    rw [if_neg h0,
      ctiKeysUnder_modify_unique (by simpa [nth] using hj) hk
        (fun j' c' hc' hk' => by
          have := huniq (j' + 1) c' (by simpa [nth] using hc') hk'
          omega)]
    show ctiKeysUnder rk k cs ++ [dk] =
      ((if posKey rk c0 = k then c0.DiagnosisKeys else []) ++ ctiKeysUnder rk k cs) ++ [dk]
    rw [if_neg h0]
    rfl

theorem ctiKeysUnder_modify_ne {rk k : String} {dk : DiagnosisKeyMsg} :
    ∀ {cs : List ContactTracingInfo} {j : Nat},
      (∀ c, nth cs j = some c → posKey rk c ≠ k) →
      ctiKeysUnder rk k (modifyIdx cs j (withKey dk)) = ctiKeysUnder rk k cs
  | [], _, _ => rfl
  | c0 :: cs, 0, h => by
    have h0 : posKey rk c0 ≠ k := h c0 rfl
    have h0' : posKey rk (withKey dk c0) ≠ k := h0
    show (if posKey rk (withKey dk c0) = k then (withKey dk c0).DiagnosisKeys else []) ++
        ctiKeysUnder rk k cs =
      (if posKey rk c0 = k then c0.DiagnosisKeys else []) ++ ctiKeysUnder rk k cs
    rw [if_neg h0, if_neg h0']
  | c0 :: cs, j + 1, h => by
    show (if posKey rk c0 = k then c0.DiagnosisKeys else []) ++
        ctiKeysUnder rk k (modifyIdx cs j (withKey dk)) = _
    rw [ctiKeysUnder_modify_ne (fun c hc => h c (by simpa [nth] using hc))]
    rfl

theorem keysUnder_addKeyAt_unique {k : String} {dk : DiagnosisKeyMsg} :
    ∀ {l : List ContactTracingResponse} {i j : Nat} {e : ContactTracingResponse}
      {c : ContactTracingInfo},
      nth l i = some e → nth e.ContactTracingInfo j = some c →
      posKey (entryKey e) c = k →
      (∀ i' e' j' c', nth l i' = some e' → nth e'.ContactTracingInfo j' = some c' →
          posKey (entryKey e') c' = k → i' = i ∧ j' = j) →
      keysUnder k (addKeyAt l i j dk) = keysUnder k l ++ [dk]
  | [], i, j, e, c, hi, _, _, _ => by simp [nth] at hi
  | e0 :: es, 0, j, e, c, hi, hj, hk, huniq => by
    have he : e0 = e := by simpa [nth] using hi
    subst he
    have hrest : keysUnder k es = [] :=
      keysUnder_nil_of (fun i' e' j' c' hi' hc' hk' =>
        absurd (huniq (i' + 1) e' j' c' (by simpa [nth] using hi') hc' hk').1 (by omega))
    have hek : entryKey (withInfoKey j dk e0) = entryKey e0 := rfl
    show ctiKeysUnder (entryKey (withInfoKey j dk e0)) k
        (withInfoKey j dk e0).ContactTracingInfo ++ keysUnder k es =
      (ctiKeysUnder (entryKey e0) k e0.ContactTracingInfo ++ keysUnder k es) ++ [dk]
    rw [hek, hrest]
    show ctiKeysUnder (entryKey e0) k (modifyIdx e0.ContactTracingInfo j (withKey dk)) ++ [] = _
    rw [ctiKeysUnder_modify_unique hj hk
      (fun j' c' hc' hk' => (huniq 0 e0 j' c' rfl hc' hk').2)]
    simp
  | e0 :: es, i + 1, j, e, c, hi, hj, hk, huniq => by
    have h0 : ∀ j' c', nth e0.ContactTracingInfo j' = some c' →
        posKey (entryKey e0) c' ≠ k := fun j' c' hc' hk' =>
      absurd (huniq 0 e0 j' c' rfl hc' hk').1 (by omega)
    show ctiKeysUnder (entryKey e0) k e0.ContactTracingInfo ++
        keysUnder k (addKeyAt es i j dk) = _
    rw [keysUnder_addKeyAt_unique (by simpa [nth] using hi) hj hk
      (fun i' e' j' c' hi' hc' hk' => by
        have := huniq (i' + 1) e' j' c' (by simpa [nth] using hi') hc' hk'
        exact ⟨by omega, this.2⟩)]
    show ctiKeysUnder (entryKey e0) k e0.ContactTracingInfo ++
        (keysUnder k es ++ [dk]) =
      (ctiKeysUnder (entryKey e0) k e0.ContactTracingInfo ++ keysUnder k es) ++ [dk]
    rw [List.append_assoc]

theorem keysUnder_addKeyAt_ne {k : String} {dk : DiagnosisKeyMsg} :
    ∀ {l : List ContactTracingResponse} {i j : Nat},
      (∀ e c, nth l i = some e → nth e.ContactTracingInfo j = some c →
          posKey (entryKey e) c ≠ k) →
      keysUnder k (addKeyAt l i j dk) = keysUnder k l
  | [], _, _, _ => rfl
  | e0 :: es, 0, j, h => by
    show ctiKeysUnder (entryKey (withInfoKey j dk e0)) k
        (withInfoKey j dk e0).ContactTracingInfo ++ keysUnder k es =
      ctiKeysUnder (entryKey e0) k e0.ContactTracingInfo ++ keysUnder k es
    have hek : entryKey (withInfoKey j dk e0) = entryKey e0 := rfl
    rw [hek]
    show ctiKeysUnder (entryKey e0) k (modifyIdx e0.ContactTracingInfo j (withKey dk)) ++
        keysUnder k es = _
    rw [ctiKeysUnder_modify_ne (fun c hc => h e0 c rfl hc)]
  | e0 :: es, i + 1, j, h => by
    show ctiKeysUnder (entryKey e0) k e0.ContactTracingInfo ++
        keysUnder k (addKeyAt es i j dk) = _
    rw [keysUnder_addKeyAt_ne (fun e c he hc => h e c (by simpa [nth] using he) hc)]
    rfl

theorem keysUnder_addCtiAt_hit {k : String} {cti : ContactTracingInfo} :
    ∀ {l : List ContactTracingResponse} {i : Nat} {e : ContactTracingResponse},
      nth l i = some e → posKey (entryKey e) cti = k → keysUnder k l = [] →
      keysUnder k (addCtiAt l i cti) = cti.DiagnosisKeys
  | [], i, e, hi, _, _ => by simp [nth] at hi
  | e0 :: es, 0, e, hi, hk, hempty => by
    have he : e0 = e := by simpa [nth] using hi
    subst he
    have hsplit := List.append_eq_nil.mp hempty
    show ctiKeysUnder (entryKey (withNewCti cti e0)) k
        (withNewCti cti e0).ContactTracingInfo ++ keysUnder k es = cti.DiagnosisKeys
    have hek : entryKey (withNewCti cti e0) = entryKey e0 := rfl
    rw [hek]
    show ctiKeysUnder (entryKey e0) k (e0.ContactTracingInfo ++ [cti]) ++ keysUnder k es = _
    rw [ctiKeysUnder_append2, hsplit.1, hsplit.2]
    show [] ++ ((if posKey (entryKey e0) cti = k then cti.DiagnosisKeys else []) ++ []) ++ [] =
      cti.DiagnosisKeys
    rw [if_pos hk]
    simp
  | e0 :: es, i + 1, e, hi, hk, hempty => by
    have hsplit := List.append_eq_nil.mp hempty
    show ctiKeysUnder (entryKey e0) k e0.ContactTracingInfo ++
        keysUnder k (addCtiAt es i cti) = cti.DiagnosisKeys
    rw [hsplit.1, keysUnder_addCtiAt_hit (by simpa [nth] using hi) hk hsplit.2]
    rfl

theorem keysUnder_addCtiAt_ne {k : String} {cti : ContactTracingInfo} :
    ∀ {l : List ContactTracingResponse} {i : Nat},
      (∀ e, nth l i = some e → posKey (entryKey e) cti ≠ k) →
      keysUnder k (addCtiAt l i cti) = keysUnder k l
  | [], _, _ => rfl
  | e0 :: es, 0, h => by
    have h0 : posKey (entryKey e0) cti ≠ k := h e0 rfl
    show ctiKeysUnder (entryKey (withNewCti cti e0)) k
        (withNewCti cti e0).ContactTracingInfo ++ keysUnder k es =
      ctiKeysUnder (entryKey e0) k e0.ContactTracingInfo ++ keysUnder k es
    have hek : entryKey (withNewCti cti e0) = entryKey e0 := rfl
    rw [hek]
    show ctiKeysUnder (entryKey e0) k (e0.ContactTracingInfo ++ [cti]) ++ keysUnder k es = _
    rw [ctiKeysUnder_append2]
    show (ctiKeysUnder (entryKey e0) k e0.ContactTracingInfo ++
        ((if posKey (entryKey e0) cti = k then cti.DiagnosisKeys else []) ++ [])) ++
        keysUnder k es = _
    rw [if_neg h0]
    simp
  | e0 :: es, i + 1, h => by
    show ctiKeysUnder (entryKey e0) k e0.ContactTracingInfo ++
        keysUnder k (addCtiAt es i cti) = _
    rw [keysUnder_addCtiAt_ne (fun e he => h e (by simpa [nth] using he))]
    rfl

theorem keysLen_modify {dk : DiagnosisKeyMsg} :
    ∀ {cs : List ContactTracingInfo} {j : Nat} {c : ContactTracingInfo},
      nth cs j = some c →
      ((modifyIdx cs j (withKey dk)).map (fun x => x.DiagnosisKeys.length)).sum =
        (cs.map (fun x => x.DiagnosisKeys.length)).sum + 1
  | [], j, c, hj => by simp [nth] at hj
  | c0 :: cs, 0, c, hj => by
    simp only [modifyIdx, List.map_cons, List.sum_cons, withKey, List.length_append,
      List.length_cons, List.length_nil]
    omega
  | c0 :: cs, j + 1, c, hj => by
    simp only [modifyIdx, List.map_cons, List.sum_cons]
    rw [keysLen_modify (by simpa [nth] using hj)]
    omega

theorem totalKeys_addKeyAt {dk : DiagnosisKeyMsg} :
    ∀ {l : List ContactTracingResponse} {i j : Nat} {e : ContactTracingResponse}
      {c : ContactTracingInfo},
      nth l i = some e → nth e.ContactTracingInfo j = some c →
      totalKeys (addKeyAt l i j dk) = totalKeys l + 1
  | [], i, j, e, c, hi, _ => by simp [nth] at hi
  | e0 :: es, 0, j, e, c, hi, hj => by
    have he : e0 = e := by simpa [nth] using hi
    subst he
    show totalKeys (withInfoKey j dk e0 :: es) = totalKeys (e0 :: es) + 1
    rw [totalKeys_cons, totalKeys_cons]
    have hic : infoCount (withInfoKey j dk e0) = infoCount e0 + 1 := by
      unfold infoCount withInfoKey
      exact keysLen_modify hj
    omega
  | e0 :: es, i + 1, j, e, c, hi, hj => by
    show totalKeys (e0 :: addKeyAt es i j dk) = totalKeys (e0 :: es) + 1
    rw [totalKeys_cons, totalKeys_cons,
      totalKeys_addKeyAt (by simpa [nth] using hi) hj]
    omega

theorem totalKeys_addCtiAt {cti : ContactTracingInfo} :
    ∀ {l : List ContactTracingResponse} {i : Nat} {e : ContactTracingResponse},
      nth l i = some e →
      totalKeys (addCtiAt l i cti) = totalKeys l + cti.DiagnosisKeys.length
  | [], i, e, hi => by simp [nth] at hi
  | e0 :: es, 0, e, hi => by
    show totalKeys (withNewCti cti e0 :: es) = totalKeys (e0 :: es) + cti.DiagnosisKeys.length
    rw [totalKeys_cons, totalKeys_cons]
    have hic : infoCount (withNewCti cti e0) = infoCount e0 + cti.DiagnosisKeys.length := by
      unfold infoCount withNewCti
      simp
    omega
  | e0 :: es, i + 1, e, hi => by
    show totalKeys (e0 :: addCtiAt es i cti) = totalKeys (e0 :: es) + cti.DiagnosisKeys.length
    rw [totalKeys_cons, totalKeys_cons, totalKeys_addCtiAt (by simpa [nth] using hi)]
    omega

/-! ## `aggStep` preservation lemmas -/

theorem ctiLenAt_eq {l : List ContactTracingResponse} {i : Nat} {e : ContactTracingResponse}
    (h : nth l i = some e) : ctiLenAt l i = e.ContactTracingInfo.length := by
  unfold ctiLenAt
  rw [h]

theorem aggStep_ts {st : AggState} {inf : Infection} :
    (aggStep st inf).ts = bumpTs st.ts inf.CreatedAt := by
  rcases hl : alookup (ctiKeyOf inf) (findOrAddCtr st inf).1.ctiMap with _ | ij <;>
    simp [aggStep, hl, findOrAddCtr_ts]

theorem map_entryKey_addCtiAt {l : List ContactTracingResponse} {i : Nat}
    {cti : ContactTracingInfo} : (addCtiAt l i cti).map entryKey = l.map entryKey :=
  map_modifyIdx entryKey l i (withNewCti cti) (fun _ => rfl)

theorem map_entryKey_addKeyAt {l : List ContactTracingResponse} {i j : Nat}
    {dk : DiagnosisKeyMsg} : (addKeyAt l i j dk).map entryKey = l.map entryKey :=
  map_modifyIdx entryKey l i (withInfoKey j dk) (fun _ => rfl)

theorem aggStep_inv {st : AggState} {inf : Infection} (hInv : AggInv st) :
    AggInv (aggStep st inf) := by
  obtain ⟨hInv1, _hcti, _hts, e1, he1, hek1⟩ := @findOrAddCtr_inv st inf hInv
  rcases hl : alookup (ctiKeyOf inf) (findOrAddCtr st inf).1.ctiMap with _ | ij
  · -- no existing info with this ctiKey: create one under the record's entry
    simp only [aggStep, hl]
    have hjnew : ctiLenAt (findOrAddCtr st inf).1.Response (findOrAddCtr st inf).2 =
        e1.ContactTracingInfo.length := ctiLenAt_eq he1
    have hnotin : ctiKeyOf inf ∉ (findOrAddCtr st inf).1.ctiMap.map Prod.fst :=
      alookup_eq_none_iff.mp hl
    constructor
    · show (findOrAddCtr st inf).1.ctrMap = idxPairs 0 (List.map entryKey (addCtiAt _ _ _))
      rw [map_entryKey_addCtiAt]
      exact hInv1.ctr_eq
    · show (List.map entryKey (addCtiAt _ _ _)).Nodup
      rw [map_entryKey_addCtiAt]
      exact hInv1.ctr_nodup
    · intro e he
      rcases mem_modifyIdx he with h1 | ⟨a, ha, hx⟩
      · exact hInv1.ctr_sorted e h1
      · rw [hx]
        exact hInv1.ctr_sorted a ha
    · rw [List.map_append, List.nodup_append]
      refine ⟨hInv1.cti_nodup, by simp, ?_⟩
      intro a ha hb
      simp only [List.map_cons, List.map_nil, List.mem_singleton] at hb
      exact hnotin (hb ▸ ha)
    · intro k i j hk
      rcases List.mem_append.mp hk with hk1 | hk1
      · rcases hInv1.cti_sound k i j hk1 with ⟨e, c, he, hc, hkey⟩
        by_cases hi : i = (findOrAddCtr st inf).2
        · subst hi
          have hee : e = e1 := by
            rw [he1] at he
            exact (Option.some.injEq _ _).mp he.symm
          subst hee
          refine ⟨withNewCti ⟨inf.DiagnosisStatus, inf.VerificationAuthorityName,
            [mkKey inf]⟩ e, c, ?_, ?_, hkey⟩
          · rw [addCtiAt, nth_modifyIdx_self, he]
            rfl
          · show nth (e.ContactTracingInfo ++ [_]) j = some c
            rw [nth_append_left (nth_lt hc)]
            exact hc
        · refine ⟨e, c, ?_, hc, hkey⟩
          rw [addCtiAt, nth_modifyIdx_ne _ _ _ _ (fun hh => hi hh.symm)]
          exact he
      · simp only [List.mem_singleton, Prod.mk.injEq] at hk1
        obtain ⟨hk2, hk3, hk4⟩ := hk1
        subst hk2 hk3 hk4
        refine ⟨withNewCti ⟨inf.DiagnosisStatus, inf.VerificationAuthorityName,
          [mkKey inf]⟩ e1, ⟨inf.DiagnosisStatus, inf.VerificationAuthorityName,
          [mkKey inf]⟩, ?_, ?_, ?_⟩
        · rw [addCtiAt, nth_modifyIdx_self, he1]
          rfl
        · show nth (e1.ContactTracingInfo ++ [_]) (ctiLenAt _ _) = _
          rw [hjnew]
          exact nth_append_len
        · show ctiKeyOf inf = posKey (entryKey e1) _
          rw [hek1]
          rfl
    · intro i e j c he hc
      by_cases hi : i = (findOrAddCtr st inf).2
      · subst hi
        rw [addCtiAt, nth_modifyIdx_self, he1] at he
        have hee : e = withNewCti ⟨inf.DiagnosisStatus, inf.VerificationAuthorityName,
            [mkKey inf]⟩ e1 := (Option.some.injEq _ _).mp he.symm
        subst hee
        have hc2 : nth (e1.ContactTracingInfo ++
            [(⟨inf.DiagnosisStatus, inf.VerificationAuthorityName,
              [mkKey inf]⟩ : ContactTracingInfo)]) j = some c := hc
        rcases nth_append_single hc2 with ⟨_hlt, hold⟩ | ⟨hlen, hcc⟩
        · refine List.mem_append.mpr (Or.inl ?_)
          have hcomp := hInv1.cti_comp (findOrAddCtr st inf).2 e1 j c he1 hold
          simpa using hcomp
        · refine List.mem_append.mpr (Or.inr ?_)
          subst hcc
          have hpk : posKey (entryKey (withNewCti ⟨inf.DiagnosisStatus,
              inf.VerificationAuthorityName, [mkKey inf]⟩ e1))
              (⟨inf.DiagnosisStatus, inf.VerificationAuthorityName,
                [mkKey inf]⟩ : ContactTracingInfo) = ctiKeyOf inf := by
            show posKey (entryKey e1) _ = ctiKeyOf inf
            rw [hek1]
            rfl
          rw [hpk, hlen, hjnew]
          simp
      · rw [addCtiAt, nth_modifyIdx_ne _ _ _ _ (fun hh => hi hh.symm)] at he
        exact List.mem_append.mpr (Or.inl (hInv1.cti_comp i e j c he hc))
  · -- existing info found: the key is appended to it, wherever it lives
    simp only [aggStep, hl]
    have hmem := alookup_mem hl
    rcases hInv1.cti_sound (ctiKeyOf inf) ij.1 ij.2 (by simpa using hmem) with
      ⟨e, c, he, hc, hkey⟩
    constructor
    · show (findOrAddCtr st inf).1.ctrMap = idxPairs 0 (List.map entryKey (addKeyAt _ _ _ _))
      rw [map_entryKey_addKeyAt]
      exact hInv1.ctr_eq
    · show (List.map entryKey (addKeyAt _ _ _ _)).Nodup
      rw [map_entryKey_addKeyAt]
      exact hInv1.ctr_nodup
    · intro x hx
      rcases mem_modifyIdx hx with h1 | ⟨a, ha, hxx⟩
      · exact hInv1.ctr_sorted x h1
      · rw [hxx]
        exact hInv1.ctr_sorted a ha
    · exact hInv1.cti_nodup
    · intro k i j hk
      rcases hInv1.cti_sound k i j hk with ⟨e', c', he', hc', hkey'⟩
      by_cases hi : i = ij.1
      · subst hi
        have hee : e' = e := by
          rw [he] at he'
          exact (Option.some.injEq _ _).mp he'.symm
        subst hee
        by_cases hj : j = ij.2
        · subst hj
          have hcc : c' = c := by
            rw [hc] at hc'
            exact (Option.some.injEq _ _).mp hc'.symm
          subst hcc
          refine ⟨withInfoKey ij.2 (mkKey inf) e', withKey (mkKey inf) c', ?_, ?_, hkey'⟩
          · rw [addKeyAt, nth_modifyIdx_self, he']
            rfl
          · show nth (modifyIdx e'.ContactTracingInfo ij.2 (withKey (mkKey inf))) ij.2 = _
            rw [nth_modifyIdx_self, hc']
            rfl
        · refine ⟨withInfoKey ij.2 (mkKey inf) e', c', ?_, ?_, hkey'⟩
          · rw [addKeyAt, nth_modifyIdx_self, he']
            rfl
          · show nth (modifyIdx e'.ContactTracingInfo ij.2 (withKey (mkKey inf))) j = _
            rw [nth_modifyIdx_ne _ _ _ _ (fun hh => hj hh.symm)]
            exact hc'
      · refine ⟨e', c', ?_, hc', hkey'⟩
        rw [addKeyAt, nth_modifyIdx_ne _ _ _ _ (fun hh => hi hh.symm)]
        exact he'
    · intro i x j y hx hy
      by_cases hi : i = ij.1
      · subst hi
        rw [addKeyAt, nth_modifyIdx_self, he] at hx
        have hxx : x = withInfoKey ij.2 (mkKey inf) e := (Option.some.injEq _ _).mp hx.symm
        subst hxx
        have hy2 : nth (modifyIdx e.ContactTracingInfo ij.2 (withKey (mkKey inf))) j =
            some y := hy
        by_cases hj : j = ij.2
        · subst hj
          rw [nth_modifyIdx_self, hc] at hy2
          have hyy : y = withKey (mkKey inf) c := (Option.some.injEq _ _).mp hy2.symm
          subst hyy
          have hpk : posKey (entryKey (withInfoKey ij.2 (mkKey inf) e))
              (withKey (mkKey inf) c) = posKey (entryKey e) c := rfl
          rw [hpk]
          exact hInv1.cti_comp ij.1 e ij.2 c he hc
        · rw [nth_modifyIdx_ne _ _ _ _ (fun hh => hj hh.symm)] at hy2
          have hpk : posKey (entryKey (withInfoKey ij.2 (mkKey inf) e)) y =
              posKey (entryKey e) y := rfl
          rw [hpk]
          exact hInv1.cti_comp ij.1 e j y he hy2
      · rw [addKeyAt, nth_modifyIdx_ne _ _ _ _ (fun hh => hi hh.symm)] at hx
        exact hInv1.cti_comp i x j y hx hy

theorem aggStep_totalKeys {st : AggState} {inf : Infection} (hInv : AggInv st) :
    totalKeys (aggStep st inf).Response = totalKeys st.Response + 1 := by
  obtain ⟨hInv1, _, _, e1, he1, _hek1⟩ := @findOrAddCtr_inv st inf hInv
  rcases hl : alookup (ctiKeyOf inf) (findOrAddCtr st inf).1.ctiMap with _ | ij
  · simp only [aggStep, hl]
    show totalKeys (addCtiAt _ _ _) = _
    rw [totalKeys_addCtiAt he1, findOrAddCtr_totalKeys]
    rfl
  · simp only [aggStep, hl]
    obtain ⟨e, c, he, hc, _⟩ := hInv1.cti_sound _ ij.1 ij.2 (alookup_mem hl)
    show totalKeys (addKeyAt _ _ _ _) = _
    rw [totalKeys_addKeyAt he hc, findOrAddCtr_totalKeys]

theorem aggStep_entryKeys {st : AggState} {inf : Infection} (hInv : AggInv st) :
    (aggStep st inf).Response.map entryKey =
      seenFold (st.Response.map entryKey) (ctrKeyOf inf) := by
  rcases hl : alookup (ctiKeyOf inf) (findOrAddCtr st inf).1.ctiMap with _ | ij
  · simp only [aggStep, hl]
    show (addCtiAt _ _ _).map entryKey = _
    rw [map_entryKey_addCtiAt, findOrAddCtr_entryKeys hInv]
  · simp only [aggStep, hl]
    show (addKeyAt _ _ _ _).map entryKey = _
    rw [map_entryKey_addKeyAt, findOrAddCtr_entryKeys hInv]

theorem aggStep_keysUnder {st : AggState} {inf : Infection} (hInv : AggInv st) (k : String) :
    keysUnder k (aggStep st inf).Response =
      keysUnder k st.Response ++ (if k = ctiKeyOf inf then [mkKey inf] else []) := by
  obtain ⟨hInv1, _, _, e1, he1, hek1⟩ := @findOrAddCtr_inv st inf hInv
  rcases hl : alookup (ctiKeyOf inf) (findOrAddCtr st inf).1.ctiMap with _ | ij
  · simp only [aggStep, hl]
    by_cases hk : k = ctiKeyOf inf
    · subst hk
      have hempty : keysUnder (ctiKeyOf inf) (findOrAddCtr st inf).1.Response = [] := by
        apply keysUnder_nil_of
        intro i e j c he hc hpk
        exact (alookup_eq_none_iff.mp hl)
          (hpk ▸ List.mem_map_of_mem Prod.fst (hInv1.cti_comp i e j c he hc))
      have hpk1 : posKey (entryKey e1)
          (⟨inf.DiagnosisStatus, inf.VerificationAuthorityName,
            [mkKey inf]⟩ : ContactTracingInfo) = ctiKeyOf inf := by
        rw [hek1]
        rfl
      show keysUnder (ctiKeyOf inf) (addCtiAt _ _ _) = _
      rw [keysUnder_addCtiAt_hit he1 hpk1 hempty, if_pos rfl]
      have hcalc : keysUnder (ctiKeyOf inf) st.Response = [] := by
        rw [← @findOrAddCtr_keysUnder st inf (ctiKeyOf inf)]
        exact hempty
      rw [hcalc]
      rfl
    · show keysUnder k (addCtiAt _ _ _) = _
      rw [keysUnder_addCtiAt_ne, findOrAddCtr_keysUnder, if_neg hk, List.append_nil]
      intro e he hpk
      have hee : e = e1 := by
        rw [he1] at he
        exact (Option.some.injEq _ _).mp he.symm
      subst hee
      apply hk
      rw [← hpk, hek1]
      rfl
  · simp only [aggStep, hl]
    obtain ⟨e, c, he, hc, hkey⟩ := hInv1.cti_sound _ ij.1 ij.2 (alookup_mem hl)
    by_cases hk : k = ctiKeyOf inf
    · subst hk
      show keysUnder (ctiKeyOf inf) (addKeyAt _ _ _ _) = _
      rw [keysUnder_addKeyAt_unique he hc hkey.symm, findOrAddCtr_keysUnder, if_pos rfl]
      intro i' e' j' c' hi' hc' hk'
      have hmem' : (ctiKeyOf inf, (i', j')) ∈ (findOrAddCtr st inf).1.ctiMap :=
        hk' ▸ hInv1.cti_comp i' e' j' c' hi' hc'
      have huniq := mem_fst_unique hInv1.cti_nodup hmem' (alookup_mem hl)
      exact ⟨congrArg Prod.fst huniq, congrArg Prod.snd huniq⟩
    · show keysUnder k (addKeyAt _ _ _ _) = _
      rw [keysUnder_addKeyAt_ne, findOrAddCtr_keysUnder, if_neg hk, List.append_nil]
      intro e' c' he' hc' hpk
      have hee : e' = e := by
        rw [he] at he'
        exact (Option.some.injEq _ _).mp he'.symm
      subst hee
      have hcc : c' = c := by
        rw [hc] at hc'
        exact (Option.some.injEq _ _).mp hc'.symm
      subst hcc
      exact hk (hkey.trans hpk).symm

/-! ## Step and run lemmas for `stepNext`/`runPre` -/

theorem stepNext_inv {statusOk : Int → Bool} {inc exc : List String} {st : AggState}
    {r : NextRes} (hInv : AggInv st) : AggInv (stepNext statusOk inc exc st r) := by
  cases r with
  | nerr => exact hInv
  | ndone => exact hInv
  | nrec o =>
      cases o with
      | none => exact hInv
      | some inf =>
          by_cases he : eligible statusOk inc exc inf = true
          · simpa [stepNext, he] using aggStep_inv hInv
          · simp only [Bool.not_eq_true] at he
            simpa [stepNext, he] using hInv

theorem runPre_inv {statusOk : Int → Bool} {inc exc : List String} :
    ∀ {l : List NextRes} {st : AggState}, AggInv st →
      AggInv (runPre statusOk inc exc st l)
  | [], _, h => h
  | _ :: l, _, h => runPre_inv (l := l) (stepNext_inv h)

theorem runPre_totalKeys {statusOk : Int → Bool} {inc exc : List String} :
    ∀ {l : List NextRes} {st : AggState}, AggInv st →
      totalKeys (runPre statusOk inc exc st l).Response =
        totalKeys st.Response + (recsOf statusOk inc exc l).length
  | [], st, _ => by simp [runPre, recsOf]
  | r :: l, st, h => by
    rw [runPre_cons]
    cases r with
    | nerr =>
        show totalKeys (runPre statusOk inc exc st l).Response = _
        rw [runPre_totalKeys h]
        rfl
    | ndone =>
        show totalKeys (runPre statusOk inc exc st l).Response = _
        rw [runPre_totalKeys h]
        rfl
    | nrec o =>
        cases o with
        | none =>
            show totalKeys (runPre statusOk inc exc st l).Response = _
            rw [runPre_totalKeys h]
            rfl
        | some inf =>
            by_cases he : eligible statusOk inc exc inf = true
            · have hs : stepNext statusOk inc exc st (NextRes.nrec (some inf)) =
                  aggStep st inf := by simp [stepNext, he]
              rw [hs, runPre_totalKeys (aggStep_inv h), aggStep_totalKeys h]
              show _ = totalKeys st.Response +
                (recsOf statusOk inc exc (NextRes.nrec (some inf) :: l)).length
              simp only [recsOf, he, if_true, List.length_cons]
              omega
            · have he' : eligible statusOk inc exc inf = false := by
                simpa using he
              have hs : stepNext statusOk inc exc st (NextRes.nrec (some inf)) = st := by
                simp [stepNext, he']
              rw [hs, runPre_totalKeys h]
              show _ = totalKeys st.Response +
                (recsOf statusOk inc exc (NextRes.nrec (some inf) :: l)).length
              simp only [recsOf, he', Bool.false_eq_true, if_false]

theorem runPre_entryKeys {statusOk : Int → Bool} {inc exc : List String} :
    ∀ {l : List NextRes} {st : AggState}, AggInv st →
      (runPre statusOk inc exc st l).Response.map entryKey =
        ((recsOf statusOk inc exc l).map ctrKeyOf).foldl seenFold
          (st.Response.map entryKey)
  | [], st, _ => by simp [runPre, recsOf]
  | r :: l, st, h => by
    rw [runPre_cons]
    cases r with
    | nerr =>
        show (runPre statusOk inc exc st l).Response.map entryKey = _
        rw [runPre_entryKeys h]
        rfl
    | ndone =>
        show (runPre statusOk inc exc st l).Response.map entryKey = _
        rw [runPre_entryKeys h]
        rfl
    | nrec o =>
        cases o with
        | none =>
            show (runPre statusOk inc exc st l).Response.map entryKey = _
            rw [runPre_entryKeys h]
            rfl
        | some inf =>
            by_cases he : eligible statusOk inc exc inf = true
            · have hs : stepNext statusOk inc exc st (NextRes.nrec (some inf)) =
                  aggStep st inf := by simp [stepNext, he]
              rw [hs, runPre_entryKeys (aggStep_inv h), aggStep_entryKeys h]
              show _ = ((recsOf statusOk inc exc
                (NextRes.nrec (some inf) :: l)).map ctrKeyOf).foldl seenFold _
              simp only [recsOf, he, if_true, List.map_cons, List.foldl_cons]
            · have he' : eligible statusOk inc exc inf = false := by
                simpa using he
              have hs : stepNext statusOk inc exc st (NextRes.nrec (some inf)) = st := by
                simp [stepNext, he']
              rw [hs, runPre_entryKeys h]
              show _ = ((recsOf statusOk inc exc
                (NextRes.nrec (some inf) :: l)).map ctrKeyOf).foldl seenFold _
              simp only [recsOf, he', Bool.false_eq_true, if_false]

theorem runPre_keysUnder {statusOk : Int → Bool} {inc exc : List String} :
    ∀ {l : List NextRes} {st : AggState}, AggInv st → ∀ k : String,
      keysUnder k (runPre statusOk inc exc st l).Response =
        keysUnder k st.Response ++
          ((recsOf statusOk inc exc l).filter (fun r => ctiKeyOf r == k)).map mkKey
  | [], st, _, k => by simp [runPre, recsOf]
  | r :: l, st, h, k => by
    rw [runPre_cons]
    cases r with
    | nerr =>
        show keysUnder k (runPre statusOk inc exc st l).Response = _
        rw [runPre_keysUnder h k]
        rfl
    | ndone =>
        show keysUnder k (runPre statusOk inc exc st l).Response = _
        rw [runPre_keysUnder h k]
        rfl
    | nrec o =>
        cases o with
        | none =>
            show keysUnder k (runPre statusOk inc exc st l).Response = _
            rw [runPre_keysUnder h k]
            rfl
        | some inf =>
            by_cases he : eligible statusOk inc exc inf = true
            · have hs : stepNext statusOk inc exc st (NextRes.nrec (some inf)) =
                  aggStep st inf := by simp [stepNext, he]
              rw [hs, runPre_keysUnder (aggStep_inv h) k, aggStep_keysUnder h k]
              show _ = keysUnder k st.Response ++
                ((recsOf statusOk inc exc
                  (NextRes.nrec (some inf) :: l)).filter (fun r => ctiKeyOf r == k)).map mkKey
              simp only [recsOf, he, if_true, List.filter_cons]
              by_cases hk : k = ctiKeyOf inf
              · subst hk
                simp only [beq_self_eq_true, if_pos rfl, List.map_cons, List.append_assoc]
                rfl
              · have hbeq : (ctiKeyOf inf == k) = false := by
                  simp only [beq_eq_false_iff_ne, ne_eq]
                  exact fun hh => hk hh.symm
                simp only [hbeq, Bool.false_eq_true, if_false, if_neg hk, List.append_nil]
            · have he' : eligible statusOk inc exc inf = false := by
                simpa using he
              have hs : stepNext statusOk inc exc st (NextRes.nrec (some inf)) = st := by
                simp [stepNext, he']
              rw [hs, runPre_keysUnder h k]
              show _ = keysUnder k st.Response ++
                ((recsOf statusOk inc exc
                  (NextRes.nrec (some inf) :: l)).filter (fun r => ctiKeyOf r == k)).map mkKey
              simp only [recsOf, he', Bool.false_eq_true, if_false]

/-! ## Timestamp lemmas -/

theorem bumpTs_eq_max (a c : Int) : bumpTs a c = max a c := by
  unfold bumpTs
  omega

theorem runPre_ts {statusOk : Int → Bool} {inc exc : List String} :
    ∀ {l : List NextRes} {st : AggState},
      (runPre statusOk inc exc st l).ts =
        ((recsOf statusOk inc exc l).map Infection.CreatedAt).foldl max st.ts
  | [], st => by simp [runPre, recsOf]
  | r :: l, st => by
    rw [runPre_cons]
    cases r with
    | nerr =>
        show (runPre statusOk inc exc st l).ts = _
        rw [runPre_ts]
        rfl
    | ndone =>
        show (runPre statusOk inc exc st l).ts = _
        rw [runPre_ts]
        rfl
    | nrec o =>
        cases o with
        | none =>
            show (runPre statusOk inc exc st l).ts = _
            rw [runPre_ts]
            rfl
        | some inf =>
            by_cases he : eligible statusOk inc exc inf = true
            · have hs : stepNext statusOk inc exc st (NextRes.nrec (some inf)) =
                  aggStep st inf := by simp [stepNext, he]
              rw [hs, runPre_ts]
              show _ = ((recsOf statusOk inc exc
                (NextRes.nrec (some inf) :: l)).map Infection.CreatedAt).foldl max st.ts
              simp only [recsOf, he, if_true, List.map_cons, List.foldl_cons]
              rw [aggStep_ts, bumpTs_eq_max]
            · have he' : eligible statusOk inc exc inf = false := by simpa using he
              have hs : stepNext statusOk inc exc st (NextRes.nrec (some inf)) = st := by
                simp [stepNext, he']
              rw [hs, runPre_ts]
              show _ = ((recsOf statusOk inc exc
                (NextRes.nrec (some inf) :: l)).map Infection.CreatedAt).foldl max st.ts
              simp only [recsOf, he', Bool.false_eq_true, if_false]

theorem le_foldl_max : ∀ (l : List Int) (a : Int), a ≤ l.foldl max a
  | [], a => le_refl a
  | c :: l, a => le_trans (le_max_left a c) (le_foldl_max l (max a c))

/-! ## Response shape facts from the invariant -/

theorem inv_pair_nodup {st : AggState} (hInv : AggInv st) :
    ∀ e, e ∈ st.Response → e.ContactTracingInfo.Pairwise
      (fun c1 c2 => (c1.DiagnosisStatus, c1.VerificationAuthorityName) ≠
        (c2.DiagnosisStatus, c2.VerificationAuthorityName)) := by
  intro e he
  rcases mem_nth he with ⟨i, hi⟩
  apply pairwise_of_nth
  intro j1 j2 c1 c2 hj hn1 hn2
  intro hpair
  have hs : c1.DiagnosisStatus = c2.DiagnosisStatus := congrArg Prod.fst hpair
  have ha : c1.VerificationAuthorityName = c2.VerificationAuthorityName :=
    congrArg Prod.snd hpair
  have hpk : posKey (entryKey e) c1 = posKey (entryKey e) c2 := by
    unfold posKey
    rw [hs, ha]
  have h1 := hInv.cti_comp i e j1 c1 hi hn1
  have h2 := hInv.cti_comp i e j2 c2 hi hn2
  rw [hpk] at h1
  have huniq := mem_fst_unique hInv.cti_nodup h1 h2
  have : j1 = j2 := congrArg Prod.snd huniq
  omega

/-- Entries carry their regions already sorted, so the canonical region-set key
(sort, then join) of an entry is just `entryKey`. -/
theorem inv_canonical_eq {st : AggState} (hInv : AggInv st) :
    ∀ e, e ∈ st.Response → regionKey e.RegionIdentifiers = entryKey e := by
  intro e he
  have hs : sortStrings e.RegionIdentifiers = e.RegionIdentifiers :=
    sorted_perm_eq (sorted_sortStrings _) (hInv.ctr_sorted e he)
      (perm_sortStrings e.RegionIdentifiers)
  unfold regionKey entryKey
  rw [hs]

/-! ## Extracting the response at each successful exit -/

theorem ctxExit_ok_resp {ctx : Ctx} {cursorAt : Nat → Option String} {n : Nat}
    {st : AggState} {resp : FederationFetchResponse}
    (h : ctxExit ctx cursorAt n st = FetchResult.ok resp) :
    resp.Response = st.Response ∧ resp.FetchResponseKeyTimestamp = st.ts ∧
      resp.PartialResponse = true := by
  unfold ctxExit at h
  by_cases hr : ctx.reason = CtxErr.other
  · rw [if_pos hr] at h
    exact absurd h (by simp)
  · rw [if_neg hr] at h
    rcases hc : cursorAt n with _ | c
    · rw [hc] at h
      exact absurd h (by simp)
    · rw [hc] at h
      have hresp : mkResp st true c = resp := by
        have := h
        injection this
      rw [← hresp]
      exact ⟨rfl, rfl, rfl⟩

theorem fetchLoop_ok_resp {ctx : Ctx} {cursorAt : Nat → Option String}
    {statusOk : Int → Bool} {inc exc : List String} :
    ∀ {nexts : List NextRes} {i n : Nat} {st : AggState} {resp : FederationFetchResponse},
      AggInv st →
      fetchLoop ctx cursorAt statusOk inc exc nexts i n st = FetchResult.ok resp →
      ∃ st', AggInv st' ∧ resp.Response = st'.Response
  | [], i, n, st, resp, hInv, h => by
    by_cases hd : ctxIsDone ctx i = true
    · rw [fetchLoop_ctx hd] at h
      exact ⟨st, hInv, (ctxExit_ok_resp h).1⟩
    · have hd' : ctxIsDone ctx i = false := by simpa using hd
      simp [fetchLoop, hd'] at h
  | r :: rest, i, n, st, resp, hInv, h => by
    by_cases hd : ctxIsDone ctx i = true
    · rw [fetchLoop_ctx hd] at h
      exact ⟨st, hInv, (ctxExit_ok_resp h).1⟩
    · have hd' : ctxIsDone ctx i = false := by simpa using hd
      cases r with
      | nerr =>
          rw [fetchLoop_nerr hd'] at h
          exact absurd h (by simp)
      | ndone =>
          rw [fetchLoop_ndone hd'] at h
          have hresp : mkResp st false "" = resp := by injection h
          exact ⟨st, hInv, by rw [← hresp]; rfl⟩
      | nrec o =>
          rw [fetchLoop_nrec hd'] at h
          exact fetchLoop_ok_resp (stepNext_inv hInv) h

/-! ## Characterization of the filter pipeline -/

theorem eligible_iff (statusOk : Int → Bool) (inc exc : List String) (inf : Infection) :
    eligible statusOk inc exc inf = true ↔
      (inf.DiagnosisKey ≠ [] ∧ inf.Regions ≠ [] ∧ inf.LocalProvenance = true ∧
        statusOk inf.DiagnosisStatus = true ∧
        (∃ r, r ∈ inf.Regions ∧ r ∉ exc) ∧
        (inc = [] ∨ ∃ r, r ∈ inf.Regions ∧ r ∈ inc)) := by
  unfold eligible
  simp only [Bool.and_eq_true, Bool.or_eq_true, Bool.not_eq_true', List.isEmpty_iff,
    List.isEmpty_eq_false, List.any_eq_true, Bool.not_eq_true, List.isEmpty_eq_true,
    decide_eq_true_eq]
  constructor
  · intro h
    refine ⟨h.1.1.1.1.1, h.1.1.1.1.2, h.1.1.1.2, h.1.1.2, ?_, ?_⟩
    · rcases h.1.2 with ⟨r, hr, hc⟩
      exact ⟨r, hr, by simpa using hc⟩
    · rcases h.2 with h2 | ⟨r, hr, hc⟩
      · exact Or.inl h2
      · exact Or.inr ⟨r, hr, by simpa using hc⟩
  · intro h
    obtain ⟨h1, h2, h3, h4, ⟨r, hr, hc⟩, h6⟩ := h
    refine ⟨⟨⟨⟨⟨h1, h2⟩, h3⟩, h4⟩, ⟨r, hr, by simpa using hc⟩⟩, ?_⟩
    rcases h6 with h6 | ⟨r', hr', hc'⟩
    · exact Or.inl h6
    · exact Or.inr ⟨r', hr', by simpa using hc'⟩

/-! ## Concrete inputs shared by the concrete scenarios -/

/-- An empty request: no inclusion or exclusion regions, fresh fetch. -/
def reqEmpty : FederationFetchRequest := ⟨[], [], 0, ""⟩

/-- A context whose signal never fires. -/
def noCtxD : Ctx := ⟨none, CtxErr.deadlineExceeded⟩

/-- A status predicate accepting every code. -/
def allStatus : Int → Bool := fun _ => true

/-- A record with regions `A`,`B` used by the filter scenarios. -/
def infAB : Infection := ⟨"ab", [1], ["A", "B"], true, 0, "a", 1, 2, 5⟩

/-- A record created before the epoch (negative `CreatedAt`). -/
def preEpoch : Infection := ⟨"p", [3], ["R"], true, 0, "a", 1, 2, -5⟩

/-! ## Claims -/

/-- C2: a fetched record is included in the response iff, in source order, its
diagnosis key is non-empty, its region set is non-empty, it is of local
provenance, its status code is recognized, at least one region escapes the
exclusion set, and the inclusion set is empty or met. Concretely, with regions
`{A,B}`: exclude=`{A}`, include=`{B}` keeps it; exclude=`{A}`, include=`{A}`
keeps it (rule 6 passes, so it is not dropped); exclude=`{A,B}` drops it for
every inclusion set. The last conjunct ties `eligible` to the loop: a record
is aggregated exactly when `eligible` accepts it. -/
theorem claim2_filter_pipeline :
    (∀ (statusOk : Int → Bool) (inc exc : List String) (inf : Infection),
      eligible statusOk inc exc inf = true ↔
        (inf.DiagnosisKey ≠ [] ∧ inf.Regions ≠ [] ∧ inf.LocalProvenance = true ∧
          statusOk inf.DiagnosisStatus = true ∧
          (∃ r, r ∈ inf.Regions ∧ r ∉ exc) ∧
          (inc = [] ∨ ∃ r, r ∈ inf.Regions ∧ r ∈ inc))) ∧
    eligible allStatus ["B"] ["A"] infAB = true ∧
    eligible allStatus ["A"] ["A"] infAB = true ∧
    (∀ inc : List String, eligible allStatus inc ["A", "B"] infAB = false) ∧
    (∀ (ctx : Ctx) (cAt : Nat → Option String) (statusOk : Int → Bool)
      (inc exc : List String) (inf : Infection) (rest : List NextRes) (i n : Nat)
      (st : AggState), ctxIsDone ctx i = false →
      fetchLoop ctx cAt statusOk inc exc (NextRes.nrec (some inf) :: rest) i n st =
        fetchLoop ctx cAt statusOk inc exc rest (i + 1) (n + 1)
          (if eligible statusOk inc exc inf then aggStep st inf else st)) := by
  refine ⟨eligible_iff, by decide, by decide, ?_, ?_⟩
  · intro inc
    simp [eligible, infAB, allStatus]
  · intro ctx cAt statusOk inc exc inf rest i n st hd
    rw [fetchLoop_nrec hd]
    rfl

/-- C2 witness: the characterization and the loop link applied at concrete
inputs. -/
theorem claim2_witness :
    eligible allStatus [] [] infAB = true ∧
    fetchLoop noCtxD (fun _ => some "T") allStatus [] []
        [NextRes.nrec (some infAB)] 0 0 initState =
      fetchLoop noCtxD (fun _ => some "T") allStatus [] [] [] 1 1
        (if eligible allStatus [] [] infAB then aggStep initState infAB else initState) :=
  ⟨(claim2_filter_pipeline.1 allStatus [] [] infAB).mpr (by decide),
    claim2_filter_pipeline.2.2.2.2 noCtxD (fun _ => some "T") allStatus [] [] infAB []
      0 0 initState (by decide)⟩

/-- C7: the request's region lists are uppercased first, and the storage
criteria carry the request's last-fetch timestamp as `SinceTimestamp`, the
supplied horizon as `UntilTimestamp`, the request's token as the cursor,
`OnlyLocalProvenance = true` always, and the (uppercased) single-region filter
exactly when one inclusion region was supplied. -/
theorem claim7_query_criteria (req : FederationFetchRequest) (u : Int) :
    (buildCriteria req u).SinceTimestamp = req.LastFetchResponseKeyTimestamp ∧
    (buildCriteria req u).UntilTimestamp = u ∧
    (buildCriteria req u).LastCursor = req.NextFetchToken ∧
    (buildCriteria req u).OnlyLocalProvenance = true ∧
    (req.RegionIdentifiers.length = 1 →
      (buildCriteria req u).IncludeRegions = req.RegionIdentifiers.map upperStr) ∧
    (req.RegionIdentifiers.length ≠ 1 → (buildCriteria req u).IncludeRegions = []) := by
  refine ⟨rfl, rfl, rfl, rfl, ?_, ?_⟩
  · intro h
    show (if (req.RegionIdentifiers.map upperStr).length = 1 then
      req.RegionIdentifiers.map upperStr else []) = _
    rw [List.length_map, if_pos h]
  · intro h
    show (if (req.RegionIdentifiers.map upperStr).length = 1 then
      req.RegionIdentifiers.map upperStr else []) = []
    rw [List.length_map, if_neg h]

/-- C7 witness: the single-region pushdown fires on a one-region request (and
uppercases it), and is absent on an empty request. -/
theorem claim7_witness :
    (buildCriteria ⟨["us"], [], 3, "tok"⟩ 9).IncludeRegions = ["US"] ∧
    (buildCriteria reqEmpty 9).IncludeRegions = [] :=
  ⟨by
    rw [(claim7_query_criteria ⟨["us"], [], 3, "tok"⟩ 9).2.2.2.2.1 (by decide)]
    decide,
   (claim7_query_criteria reqEmpty 9).2.2.2.2.2 (by decide)⟩

/-- C9: no within-call deduplication: the total number of `DiagnosisKey`
entries in the aggregated response equals the number of eligible records
processed, and two byte-for-byte identical eligible records produce two
entries in the same `ContactTracingInfo`. -/
theorem claim9_no_dedup :
    (∀ (statusOk : Int → Bool) (inc exc : List String) (l : List NextRes),
      totalKeys (runPre statusOk inc exc initState l).Response =
        (recsOf statusOk inc exc l).length) ∧
    fetch reqEmpty (fun _ => some ⟨[NextRes.nrec (some infAB), NextRes.nrec (some infAB),
        NextRes.ndone], fun _ => some "T"⟩) 7 noCtxD allStatus =
      FetchResult.ok ⟨[⟨["A", "B"], [⟨0, "a", [⟨[1], 1, 2⟩, ⟨[1], 1, 2⟩]⟩]⟩], 5, false, ""⟩ := by
  constructor
  · intro statusOk inc exc l
    have h := @runPre_totalKeys statusOk inc exc l initState initState_inv
    simpa [initState, totalKeys] using h
  · decide

/-- C10: the high-watermark starts at 0 and is bumped only by a strictly
larger `CreatedAt`, so it always equals `max 0 (maximum CreatedAt over
included records)` and is never negative; a pre-epoch record is still included
(it contributes its key) but leaves the watermark at 0. -/
theorem claim10_watermark_clamped :
    (∀ (statusOk : Int → Bool) (inc exc : List String) (l : List NextRes),
      (runPre statusOk inc exc initState l).ts =
        ((recsOf statusOk inc exc l).map Infection.CreatedAt).foldl max 0 ∧
      0 ≤ (runPre statusOk inc exc initState l).ts) ∧
    (totalKeys (runPre allStatus [] [] initState
        [NextRes.nrec (some preEpoch)]).Response = 1 ∧
      (runPre allStatus [] [] initState [NextRes.nrec (some preEpoch)]).ts = 0) := by
  constructor
  · intro statusOk inc exc l
    constructor
    · have h := @runPre_ts statusOk inc exc l initState
      simpa [initState] using h
    · have h := @runPre_ts statusOk inc exc l initState
      rw [h]
      exact le_foldl_max _ _
  · exact ⟨by decide, by decide⟩

/-- C8 counterexample: the `ctiKey` strings of two different (region-set,
status, authority) triples collide — record `rYc` (regions `["A::1"]`,
status 2, authority `"B"`) shares the string `"A::1::2::B"` with the info
(status 1, authority `"2::B"`) created under the entry `["A"]` — so `rYc`'s
DiagnosisKey `[8]` is appended to that other info, and `rYc`'s own group is
never created (the entry `["A::1"]` stays empty). This refutes the claim that
each eligible record's key is appended to its group's sequence and that infos
appear in first-seen order of their (region-set, status, authority) keys. -/
theorem claim8_cex :
    fetch reqEmpty (fun _ => some ⟨[NextRes.nrec (some (⟨"x", [9], ["A"], true, 1,
        "2::B", 1, 2, 5⟩ : Infection)), NextRes.nrec (some (⟨"y", [8], ["A::1"], true, 2,
        "B", 1, 2, 5⟩ : Infection)), NextRes.ndone], fun _ => some "T"⟩) 7 noCtxD allStatus =
      FetchResult.ok ⟨[⟨["A"], [⟨1, "2::B", [⟨[9], 1, 2⟩, ⟨[8], 1, 2⟩]⟩]⟩,
        ⟨["A::1"], []⟩], 5, false, ""⟩ := by
  decide

/-- C8 amended: aggregation is an insertion-order-deterministic fold — the
top-level entries appear in first-seen order of their canonical region-set
keys, and every eligible record's `DiagnosisKey` (fields copied verbatim by
`mkKey`) is appended, in processing order, to the key sequence of the infos
answering to its `ctiKey` string; when the `ctiKey` strings are injective on
(region-set, status, authority) triples this is exactly its group's
sequence. -/
theorem claim8_amended_fold (statusOk : Int → Bool) (inc exc : List String)
    (l : List NextRes) :
    (runPre statusOk inc exc initState l).Response.map entryKey =
      firstSeen ((recsOf statusOk inc exc l).map ctrKeyOf) ∧
    (∀ k : String, keysUnder k (runPre statusOk inc exc initState l).Response =
      ((recsOf statusOk inc exc l).filter (fun r => ctiKeyOf r == k)).map mkKey) := by
  constructor
  · have h := @runPre_entryKeys statusOk inc exc l initState initState_inv
    simpa [initState, firstSeen] using h
  · intro k
    have h := @runPre_keysUnder statusOk inc exc l initState initState_inv k
    simpa [initState, keysUnder] using h

/-- C5: if the iterator reports exhaustion before any signal, the call
succeeds with `PartialResponse = false` and `NextFetchToken = ""` (the
response is exactly the aggregation of the consumed prefix); and a nil record
without the exhaustion flag is skipped as a no-op and the loop continues. -/
theorem claim5_natural_exhaustion :
    (∀ (req : FederationFetchRequest)
      (itF : FetchInfectionsCriteria → Option InfectionIterator) (u : Int) (ctx : Ctx)
      (statusOk : Int → Bool) (it : InfectionIterator) (pre rest : List NextRes),
      itF (buildCriteria req u) = some it →
      it.nexts = pre ++ NextRes.ndone :: rest →
      pre.all NextRes.isRec = true →
      ctxIsDone ctx pre.length = false →
      fetch req itF u ctx statusOk =
        FetchResult.ok (mkResp (runPre statusOk (req.RegionIdentifiers.map upperStr)
          (req.ExcludeRegionIdentifiers.map upperStr) initState pre) false "")) ∧
    (∀ (ctx : Ctx) (cAt : Nat → Option String) (statusOk : Int → Bool)
      (inc exc : List String) (rest : List NextRes) (i n : Nat) (st : AggState),
      ctxIsDone ctx i = false →
      fetchLoop ctx cAt statusOk inc exc (NextRes.nrec none :: rest) i n st =
        fetchLoop ctx cAt statusOk inc exc rest (i + 1) (n + 1) st) := by
  constructor
  · intro req itF u ctx statusOk it pre rest hitF hscript hpre hctx
    simp only [fetch, hitF]
    rw [hscript]
    exact fetchLoop_complete pre rest 0 0 initState (by simpa using hctx) hpre
  · intro ctx cAt statusOk inc exc rest i n st hd
    rw [fetchLoop_nrec hd]
    rfl

/-- C5 witness: a two-element script (one record, then exhaustion) with no
signal ends complete and cursor-free, and a nil record is skipped. -/
theorem claim5_witness :
    fetch reqEmpty (fun _ => some ⟨[NextRes.nrec (some infAB), NextRes.ndone],
        fun _ => some "T"⟩) 7 noCtxD allStatus =
      FetchResult.ok (mkResp (runPre allStatus [] [] initState
        [NextRes.nrec (some infAB)]) false "") ∧
    fetchLoop noCtxD (fun _ => some "T") allStatus [] []
        [NextRes.nrec none, NextRes.ndone] 0 0 initState =
      fetchLoop noCtxD (fun _ => some "T") allStatus [] [] [NextRes.ndone] 1 1 initState :=
  ⟨claim5_natural_exhaustion.1 reqEmpty _ 7 noCtxD allStatus _
      [NextRes.nrec (some infAB)] [] rfl rfl (by decide) (by decide),
    claim5_natural_exhaustion.2 noCtxD (fun _ => some "T") allStatus [] []
      [NextRes.ndone] 0 0 initState (by decide)⟩

/-- C1 counterexample: the deadline signal fires (iteration 0, reason
deadline-exceeded) before the iterator is exhausted (its script still holds a
record), but `Cursor()` fails — the call returns a nil response with an error,
not a successful partial response, refuting the unconditional claim. -/
theorem claim1_cex :
    fetch reqEmpty (fun _ => some ⟨[NextRes.nrec (some infAB), NextRes.ndone],
        fun _ => none⟩) 7 ⟨some 0, CtxErr.deadlineExceeded⟩ allStatus =
      FetchResult.fail := by
  decide

/-- C1 amended: when the signal (deadline-exceeded or cancellation) fires
after exactly `pre` iterations, before exhaustion, and the cursor retrieval
then succeeds with `c`, the call returns a successful response with
`PartialResponse = true` and `NextFetchToken = c` (non-empty whenever `c`
is), whose content aggregates only the records of `pre`: the remainder of
the script is universally quantified and never inspected, so no record past
the signal is pulled or included. -/
theorem claim1_amended_partial (req : FederationFetchRequest)
    (itF : FetchInfectionsCriteria → Option InfectionIterator) (u : Int) (ctx : Ctx)
    (statusOk : Int → Bool) (it : InfectionIterator) (pre rest : List NextRes) (c : String)
    (hitF : itF (buildCriteria req u) = some it)
    (hscript : it.nexts = pre ++ rest)
    (hpre : pre.all NextRes.isRec = true)
    (hdone : ctx.doneAfter = some pre.length)
    (hreason : ctx.reason ≠ CtxErr.other)
    (hcursor : it.cursorAt pre.length = some c) :
    fetch req itF u ctx statusOk =
      FetchResult.ok (mkResp (runPre statusOk (req.RegionIdentifiers.map upperStr)
        (req.ExcludeRegionIdentifiers.map upperStr) initState pre) true c) := by
  simp only [fetch, hitF]
  rw [hscript]
  exact fetchLoop_partial pre rest 0 0 initState (by simpa using hdone) hreason hpre
    (by simpa using hcursor)

/-- C1 witness: the signal fires after one record; the response is partial,
carries the cursor "CUR", and contains only the first record — the unread
remainder (an iterator error!) is never touched. -/
theorem claim1_witness :
    fetch reqEmpty (fun _ => some ⟨[NextRes.nrec (some infAB), NextRes.nerr],
        fun _ => some "CUR"⟩) 7 ⟨some 1, CtxErr.canceled⟩ allStatus =
      FetchResult.ok (mkResp (runPre allStatus [] [] initState
        [NextRes.nrec (some infAB)]) true "CUR") :=
  claim1_amended_partial reqEmpty _ 7 ⟨some 1, CtxErr.canceled⟩ allStatus _
    [NextRes.nrec (some infAB)] [NextRes.nerr] "CUR" rfl rfl (by decide) (by decide)
    (by decide) (by decide)

/-- C6: every fatal condition aborts the whole call with an error and no
response data (`FetchResult.fail` carries no response): iterator open
failure, an `it.Next` error, a cursor-retrieval failure during a
deadline-triggered stop, and a signal with an unexpected reason; whereas a
record rejected by the filter pipeline never aborts — the loop just moves
on with the state unchanged. -/
theorem claim6_fatal_errors :
    (∀ (req : FederationFetchRequest)
      (itF : FetchInfectionsCriteria → Option InfectionIterator) (u : Int) (ctx : Ctx)
      (statusOk : Int → Bool), itF (buildCriteria req u) = none →
      fetch req itF u ctx statusOk = FetchResult.fail) ∧
    (∀ (req : FederationFetchRequest)
      (itF : FetchInfectionsCriteria → Option InfectionIterator) (u : Int) (ctx : Ctx)
      (statusOk : Int → Bool) (it : InfectionIterator) (pre rest : List NextRes),
      itF (buildCriteria req u) = some it →
      it.nexts = pre ++ NextRes.nerr :: rest →
      pre.all NextRes.isRec = true →
      ctxIsDone ctx pre.length = false →
      fetch req itF u ctx statusOk = FetchResult.fail) ∧
    (∀ (req : FederationFetchRequest)
      (itF : FetchInfectionsCriteria → Option InfectionIterator) (u : Int) (ctx : Ctx)
      (statusOk : Int → Bool) (it : InfectionIterator) (pre rest : List NextRes),
      itF (buildCriteria req u) = some it →
      it.nexts = pre ++ rest →
      pre.all NextRes.isRec = true →
      ctx.doneAfter = some pre.length →
      ctx.reason ≠ CtxErr.other →
      it.cursorAt pre.length = none →
      fetch req itF u ctx statusOk = FetchResult.fail) ∧
    (∀ (req : FederationFetchRequest)
      (itF : FetchInfectionsCriteria → Option InfectionIterator) (u : Int) (ctx : Ctx)
      (statusOk : Int → Bool) (it : InfectionIterator) (pre rest : List NextRes),
      itF (buildCriteria req u) = some it →
      it.nexts = pre ++ rest →
      pre.all NextRes.isRec = true →
      ctx.doneAfter = some pre.length →
      ctx.reason = CtxErr.other →
      fetch req itF u ctx statusOk = FetchResult.fail) ∧
    (∀ (ctx : Ctx) (cAt : Nat → Option String) (statusOk : Int → Bool)
      (inc exc : List String) (inf : Infection) (rest : List NextRes) (i n : Nat)
      (st : AggState),
      ctxIsDone ctx i = false → eligible statusOk inc exc inf = false →
      fetchLoop ctx cAt statusOk inc exc (NextRes.nrec (some inf) :: rest) i n st =
        fetchLoop ctx cAt statusOk inc exc rest (i + 1) (n + 1) st) := by
  refine ⟨?_, ?_, ?_, ?_, ?_⟩
  · intro req itF u ctx statusOk hitF
    simp [fetch, hitF]
  · intro req itF u ctx statusOk it pre rest hitF hscript hpre hctx
    simp only [fetch, hitF]
    rw [hscript]
    exact fetchLoop_iterErr pre rest 0 0 initState (by simpa using hctx) hpre
  · intro req itF u ctx statusOk it pre rest hitF hscript hpre hdone hreason hcursor
    simp only [fetch, hitF]
    rw [hscript]
    exact fetchLoop_cursorErr pre rest 0 0 initState (by simpa using hdone) hreason hpre
      (by simpa using hcursor)
  · intro req itF u ctx statusOk it pre rest hitF hscript hpre hdone hreason
    simp only [fetch, hitF]
    rw [hscript]
    exact fetchLoop_otherErr pre rest 0 0 initState (by simpa using hdone) hreason hpre
  · intro ctx cAt statusOk inc exc inf rest i n st hd he
    rw [fetchLoop_nrec hd]
    show fetchLoop ctx cAt statusOk inc exc rest (i + 1) (n + 1)
      (if eligible statusOk inc exc inf then aggStep st inf else st) = _
    rw [he]
    simp

/-- C6 witness: each fatal condition at a concrete input, and a soft filter
rejection that merely continues the loop. -/
theorem claim6_witness :
    fetch reqEmpty (fun _ => none) 7 noCtxD allStatus = FetchResult.fail ∧
    fetch reqEmpty (fun _ => some ⟨[NextRes.nerr], fun _ => some "T"⟩) 7 noCtxD allStatus =
      FetchResult.fail ∧
    fetch reqEmpty (fun _ => some ⟨[], fun _ => none⟩) 7
      ⟨some 0, CtxErr.deadlineExceeded⟩ allStatus = FetchResult.fail ∧
    fetch reqEmpty (fun _ => some ⟨[], fun _ => some "T"⟩) 7
      ⟨some 0, CtxErr.other⟩ allStatus = FetchResult.fail ∧
    fetchLoop noCtxD (fun _ => some "T") (fun _ => false) [] []
        [NextRes.nrec (some infAB), NextRes.ndone] 0 0 initState =
      fetchLoop noCtxD (fun _ => some "T") (fun _ => false) [] [] [NextRes.ndone] 1 1
        initState :=
  ⟨claim6_fatal_errors.1 reqEmpty _ 7 noCtxD allStatus rfl,
    claim6_fatal_errors.2.1 reqEmpty _ 7 noCtxD allStatus _ [] [] rfl rfl
      (by decide) (by decide),
    claim6_fatal_errors.2.2.1 reqEmpty _ 7 ⟨some 0, CtxErr.deadlineExceeded⟩ allStatus _
      [] [] rfl rfl (by decide) (by decide) (by decide) (by decide),
    claim6_fatal_errors.2.2.2.1 reqEmpty _ 7 ⟨some 0, CtxErr.other⟩ allStatus _ [] []
      rfl rfl (by decide) (by decide) (by decide),
    claim6_fatal_errors.2.2.2.2 noCtxD (fun _ => some "T") (fun _ => false) [] [] infAB
      [NextRes.ndone] 0 0 initState (by decide) (by decide)⟩

/-- C3 counterexample: the records `["A","A"]` and `["A"]` have region sets
that are equal as sets, yet the run folds them into two distinct
`ContactTracingResponse` entries (canonical keys `"A::A"` and `"A"`), because
the canonical key is taken over the sorted list, not the deduplicated set. -/
theorem claim3_cex :
    (["A", "A"] : List String).toFinset = (["A"] : List String).toFinset ∧
    fetch reqEmpty (fun _ => some ⟨[NextRes.nrec (some (⟨"a1", [1], ["A", "A"], true, 0,
        "a", 1, 2, 5⟩ : Infection)), NextRes.nrec (some (⟨"a2", [2], ["A"], true, 0,
        "a", 1, 2, 5⟩ : Infection)), NextRes.ndone], fun _ => some "T"⟩) 7 noCtxD
        allStatus =
      FetchResult.ok ⟨[⟨["A", "A"], [⟨0, "a", [⟨[1], 1, 2⟩]⟩]⟩,
        ⟨["A"], [⟨0, "a", [⟨[2], 1, 2⟩]⟩]⟩], 5, false, ""⟩ := by
  exact ⟨by decide, by decide⟩

/-- C3 amended: in every returned response no two entries share a canonical
region-set key and no two infos under one entry share a (status, authority)
pair; and the canonical key is invariant under permutation of the region list
(equality as multisets), so two eligible records whose region lists are
permutations of each other select the same entry — set equality alone (with
duplicates collapsed) is not enough. -/
theorem claim3_amended_uniqueness :
    (∀ (req : FederationFetchRequest)
      (itF : FetchInfectionsCriteria → Option InfectionIterator) (u : Int) (ctx : Ctx)
      (statusOk : Int → Bool) (resp : FederationFetchResponse),
      fetch req itF u ctx statusOk = FetchResult.ok resp →
      ((resp.Response.map (fun e => regionKey e.RegionIdentifiers)).Nodup ∧
        ∀ e, e ∈ resp.Response → e.ContactTracingInfo.Pairwise
          (fun c1 c2 => (c1.DiagnosisStatus, c1.VerificationAuthorityName) ≠
            (c2.DiagnosisStatus, c2.VerificationAuthorityName)))) ∧
    (∀ l1 l2 : List String, l1.Perm l2 → regionKey l1 = regionKey l2) ∧
    (∀ inf1 inf2 : Infection, inf1.Regions.Perm inf2.Regions →
      ctrKeyOf inf1 = ctrKeyOf inf2) := by
  refine ⟨?_, fun l1 l2 h => regionKey_perm_eq h, fun i1 i2 h => regionKey_perm_eq h⟩
  intro req itF u ctx statusOk resp h
  rcases hit : itF (buildCriteria req u) with _ | it
  · simp [fetch, hit] at h
  · simp only [fetch, hit] at h
    obtain ⟨st', hInv', hresp⟩ := fetchLoop_ok_resp initState_inv h
    constructor
    · rw [hresp]
      have hmc : st'.Response.map (fun e => regionKey e.RegionIdentifiers) =
          st'.Response.map entryKey :=
        List.map_congr_left (fun e he => inv_canonical_eq hInv' e he)
      rw [hmc]
      exact hInv'.ctr_nodup
    · intro e he
      rw [hresp] at he
      exact inv_pair_nodup hInv' e he

/-- C3 witness: the uniqueness properties on a concrete (empty) run, and
permutation invariance of the canonical key at a concrete pair. -/
theorem claim3_witness :
    (((⟨[], 0, false, ""⟩ : FederationFetchResponse).Response.map
      (fun e => regionKey e.RegionIdentifiers)).Nodup) ∧
    regionKey ["B", "A"] = regionKey ["A", "B"] :=
  ⟨(claim3_amended_uniqueness.1 reqEmpty
      (fun _ => some ⟨[NextRes.ndone], fun _ => some "T"⟩) 7 noCtxD allStatus
      ⟨[], 0, false, ""⟩ (by decide)).1,
    claim3_amended_uniqueness.2.1 ["B", "A"] ["A", "B"] (List.Perm.swap "A" "B" [])⟩

/-- C4 counterexample: a single eligible record with `CreatedAt = -5` is
included (its key appears in the response), so the maximum `CreatedAt` among
included records is `-5`, yet `FetchResponseKeyTimestamp` is `0` — the
watermark never goes below its initial 0. -/
theorem claim4_cex :
    fetch reqEmpty (fun _ => some ⟨[NextRes.nrec (some preEpoch), NextRes.ndone],
        fun _ => some "T"⟩) 7 noCtxD allStatus =
      FetchResult.ok ⟨[⟨["R"], [⟨0, "a", [⟨[3], 1, 2⟩]⟩]⟩], 0, false, ""⟩ ∧
    (0 : Int) ≠ -5 := by
  exact ⟨by decide, by decide⟩

/-- C4 amended: on every call, `FetchResponseKeyTimestamp` equals
`max 0 (maximum CreatedAt over the records actually included)` — written as a
left fold of `max` over their `CreatedAt`s starting at 0 — hence `0` when no
record is included and never negative; the two conjuncts cover the
natural-exhaustion exit and the deadline-partial exit. -/
theorem claim4_amended_watermark :
    (∀ (req : FederationFetchRequest)
      (itF : FetchInfectionsCriteria → Option InfectionIterator) (u : Int) (ctx : Ctx)
      (statusOk : Int → Bool) (it : InfectionIterator) (pre rest : List NextRes),
      itF (buildCriteria req u) = some it →
      it.nexts = pre ++ NextRes.ndone :: rest →
      pre.all NextRes.isRec = true →
      ctxIsDone ctx pre.length = false →
      ∃ resp, fetch req itF u ctx statusOk = FetchResult.ok resp ∧
        resp.FetchResponseKeyTimestamp =
          ((recsOf statusOk (req.RegionIdentifiers.map upperStr)
            (req.ExcludeRegionIdentifiers.map upperStr) pre).map
              Infection.CreatedAt).foldl max 0 ∧
        0 ≤ resp.FetchResponseKeyTimestamp ∧
        (recsOf statusOk (req.RegionIdentifiers.map upperStr)
            (req.ExcludeRegionIdentifiers.map upperStr) pre = [] →
          resp.FetchResponseKeyTimestamp = 0)) ∧
    (∀ (req : FederationFetchRequest)
      (itF : FetchInfectionsCriteria → Option InfectionIterator) (u : Int) (ctx : Ctx)
      (statusOk : Int → Bool) (it : InfectionIterator) (pre rest : List NextRes)
      (c : String),
      itF (buildCriteria req u) = some it →
      it.nexts = pre ++ rest →
      pre.all NextRes.isRec = true →
      ctx.doneAfter = some pre.length →
      ctx.reason ≠ CtxErr.other →
      it.cursorAt pre.length = some c →
      ∃ resp, fetch req itF u ctx statusOk = FetchResult.ok resp ∧
        resp.FetchResponseKeyTimestamp =
          ((recsOf statusOk (req.RegionIdentifiers.map upperStr)
            (req.ExcludeRegionIdentifiers.map upperStr) pre).map
              Infection.CreatedAt).foldl max 0 ∧
        0 ≤ resp.FetchResponseKeyTimestamp ∧
        (recsOf statusOk (req.RegionIdentifiers.map upperStr)
            (req.ExcludeRegionIdentifiers.map upperStr) pre = [] →
          resp.FetchResponseKeyTimestamp = 0)) := by
  constructor
  · intro req itF u ctx statusOk it pre rest hitF hscript hpre hctx
    refine ⟨mkResp (runPre statusOk (req.RegionIdentifiers.map upperStr)
      (req.ExcludeRegionIdentifiers.map upperStr) initState pre) false "", ?_, ?_, ?_, ?_⟩
    · simp only [fetch, hitF]
      rw [hscript]
      exact fetchLoop_complete pre rest 0 0 initState (by simpa using hctx) hpre
    · show (runPre statusOk _ _ initState pre).ts = _
      have h := @runPre_ts statusOk (req.RegionIdentifiers.map upperStr)
        (req.ExcludeRegionIdentifiers.map upperStr) pre initState
      simpa [initState] using h
    · show (0 : Int) ≤ (runPre statusOk _ _ initState pre).ts
      rw [runPre_ts]
      exact le_foldl_max _ _
    · intro hnil
      show (runPre statusOk _ _ initState pre).ts = 0
      rw [runPre_ts, hnil]
      rfl
  · intro req itF u ctx statusOk it pre rest c hitF hscript hpre hdone hreason hcursor
    refine ⟨mkResp (runPre statusOk (req.RegionIdentifiers.map upperStr)
      (req.ExcludeRegionIdentifiers.map upperStr) initState pre) true c, ?_, ?_, ?_, ?_⟩
    · simp only [fetch, hitF]
      rw [hscript]
      exact fetchLoop_partial pre rest 0 0 initState (by simpa using hdone) hreason hpre
        (by simpa using hcursor)
    · show (runPre statusOk _ _ initState pre).ts = _
      have h := @runPre_ts statusOk (req.RegionIdentifiers.map upperStr)
        (req.ExcludeRegionIdentifiers.map upperStr) pre initState
      simpa [initState] using h
    · show (0 : Int) ≤ (runPre statusOk _ _ initState pre).ts
      rw [runPre_ts]
      exact le_foldl_max _ _
    · intro hnil
      show (runPre statusOk _ _ initState pre).ts = 0
      rw [runPre_ts, hnil]
      rfl

/-- C4 witness: the pre-epoch run has watermark `max 0 (-5) = 0`. -/
theorem claim4_witness :
    ∃ resp,
      fetch reqEmpty (fun _ => some ⟨[NextRes.nrec (some preEpoch), NextRes.ndone],
        fun _ => some "T"⟩) 7 noCtxD allStatus = FetchResult.ok resp ∧
      resp.FetchResponseKeyTimestamp =
        ((recsOf allStatus [] [] [NextRes.nrec (some preEpoch)]).map
          Infection.CreatedAt).foldl max 0 ∧
      0 ≤ resp.FetchResponseKeyTimestamp ∧
      (recsOf allStatus [] [] [NextRes.nrec (some preEpoch)] = [] →
        resp.FetchResponseKeyTimestamp = 0) :=
  claim4_amended_watermark.1 reqEmpty _ 7 noCtxD allStatus _
    [NextRes.nrec (some preEpoch)] [] rfl rfl (by decide) (by decide)
